import Mathlib

/-!
Verification development for the JVMTI tag map (`jvmtiTagMap.cpp`).

Shallow embedding conventions:
* `oop`s (object references) are modelled as `Nat` (the numeric address);
  the hash function reproduces the source's address arithmetic, including
  the 32-bit truncation of the `(unsigned int)(intptr_t)` cast.
* `jlong` tags are modelled as `Int`.
* Heap mutation is modelled by explicit state passing; a chained hash
  bucket becomes a `List` of entries (the `_next` pointer is the list
  structure).
* `os::malloc` outcomes are modelled by explicit `Bool`/`Option` oracles
  passed to the operations that allocate.
* Collaborator facilities outside this file's source (object model,
  class introspection, JNI handle resolution) are modelled as oracle
  functions collected in `VMContext`.
-/

set_option maxRecDepth 100000

/-- A `JvmtiTagHashmapEntry` holds the tagged object and the tag; the
`_next` chain pointer is represented by the enclosing list. -/
structure JvmtiTagHashmapEntry where
  object : Nat
  tag : Int
deriving DecidableEq

/-- The fixed table of possible hashmap sizes (`JvmtiTagHashmap::_sizes`),
terminated by `-1`. -/
def hashmap_sizes : List Int :=
  [4801, 76831, 307261, 614563, 1228891, 2457733, 4915219, 9830479,
   19660831, 39321619, 78643219, -1]

/-- `JvmtiTagHashmap::hash(oop key, int size)`: the address is truncated to
an `unsigned int`, shifted right by 3 (64-bit pointer alignment), and taken
modulo the table size. -/
def hashmapHash (key : Nat) (size : Nat) : Nat :=
  ((key % 4294967296) >>> 3) % size

/-- State of a `JvmtiTagHashmap`.  `_load_factor` is a `float` in the
source with default value `4.0f`; every threshold it produces on the fixed
size table is an exact small integer, so it is carried as a `Nat`.  The
trace-threshold bookkeeping (`_trace_threshold`) only gates debug printing
and has no effect on the table state, so it is not carried. -/
structure JvmtiTagHashmap where
  size_index : Nat
  size : Nat
  entry_count : Nat
  load_factor : Nat
  resize_threshold : Nat
  resizing_enabled : Bool
  table : List (List JvmtiTagHashmapEntry)
deriving DecidableEq

/-- `JvmtiTagHashmap::init(size_index, load_factor)`.  The initial
allocation of the bucket array is asserted to succeed in the source
(`vm_exit_out_of_memory` otherwise). -/
def JvmtiTagHashmap.init (size_index : Nat) (load_factor : Nat) : JvmtiTagHashmap :=
  let initial_size := (hashmap_sizes.getD size_index (-1)).toNat
  { size_index := size_index
    size := initial_size
    entry_count := 0
    load_factor := load_factor
    resize_threshold := load_factor * initial_size
    resizing_enabled := true
    table := List.replicate initial_size [] }

/-- Prepend an entry to the bucket its object hashes to (the
`anchor`/`set_next` insertion pattern used by `add`, `resize` and the
reconciliation splices). -/
def tableInsert (size : Nat) (t : List (List JvmtiTagHashmapEntry))
    (e : JvmtiTagHashmapEntry) : List (List JvmtiTagHashmapEntry) :=
  let h := hashmapHash e.object size
  t.set h (e :: t.getD h [])

/-- All entries of the table, in bucket order then chain order (the order
`entry_iterate` visits them). -/
def JvmtiTagHashmap.entries (m : JvmtiTagHashmap) : List JvmtiTagHashmapEntry :=
  m.table.flatten

/-- Walk one bucket chain looking for a key (the loop body of
`JvmtiTagHashmap::find`). -/
def bucketFind (key : Nat) : List JvmtiTagHashmapEntry → Option JvmtiTagHashmapEntry
  | [] => none
  | e :: rest => if e.object = key then some e else bucketFind key rest

/-- `JvmtiTagHashmap::find(oop key)`. -/
def JvmtiTagHashmap.find (m : JvmtiTagHashmap) (key : Nat) :
    Option JvmtiTagHashmapEntry :=
  bucketFind key (m.table.getD (hashmapHash key m.size) [])

/-- `JvmtiTagHashmap::resize()`: move to the next size in `_sizes`; give up
at the `-1` terminator; on allocation failure of the larger table, disable
resizing; otherwise rehash every entry into the new table. -/
def JvmtiTagHashmap.resize (m : JvmtiTagHashmap) (allocOk : Bool) : JvmtiTagHashmap :=
  let new_size_index := m.size_index + 1
  let new_size_val := hashmap_sizes.getD new_size_index (-1)
  if new_size_val < 0 then
    m
  else if allocOk = false then
    { m with resizing_enabled := false }
  else
    let new_size := new_size_val.toNat
    let new_table := m.table.flatten.foldl (tableInsert new_size)
      (List.replicate new_size [])
    { m with table := new_table
             size_index := new_size_index
             size := new_size
             resize_threshold := m.load_factor * new_size }

/-- `JvmtiTagHashmap::add(oop key, entry)`.  Precondition in the source:
`find(key) == NULL`.  The insertion itself always succeeds; afterwards the
table resizes when the entry count exceeds the threshold and resizing is
enabled.  `allocOk` is the outcome of the `os::malloc` a triggered resize
would perform. -/
def JvmtiTagHashmap.add (m : JvmtiTagHashmap) (allocOk : Bool) (key : Nat)
    (entry : JvmtiTagHashmapEntry) : JvmtiTagHashmap :=
  let h := hashmapHash key m.size
  let m1 := { m with table := m.table.set h (entry :: m.table.getD h [])
                     entry_count := m.entry_count + 1 }
  if m1.entry_count > m1.resize_threshold ∧ m1.resizing_enabled then
    m1.resize allocOk
  else
    m1

/-- Remove the first entry with the given key from a bucket chain,
returning it (the `prev`/`entry` walk of `JvmtiTagHashmap::remove`). -/
def bucketRemove (key : Nat) : List JvmtiTagHashmapEntry →
    Option JvmtiTagHashmapEntry × List JvmtiTagHashmapEntry
  | [] => (none, [])
  | e :: rest =>
    if e.object = key then (some e, rest)
    else
      let (r, rest1) := bucketRemove key rest
      (r, e :: rest1)

/-- `JvmtiTagHashmap::remove(oop key)`: unlink the entry (if present) and
decrement the entry count. -/
def JvmtiTagHashmap.remove (m : JvmtiTagHashmap) (key : Nat) :
    Option JvmtiTagHashmapEntry × JvmtiTagHashmap :=
  let h := hashmapHash key m.size
  match bucketRemove key (m.table.getD h []) with
  | (none, _) => (none, m)
  | (some e, bucket1) =>
    (some e, { m with table := m.table.set h bucket1
                      entry_count := m.entry_count - 1 })

/-- Overwrite the tag of the first entry with the given key in a bucket
chain; models the in-place `entry->set_tag(tag)` store on the entry that
`find` returned. -/
def bucketSetTag (key : Nat) (tag : Int) :
    List JvmtiTagHashmapEntry → List JvmtiTagHashmapEntry
  | [] => []
  | e :: rest =>
    if e.object = key then { e with tag := tag } :: rest
    else e :: bucketSetTag key tag rest

/-- In-place tag overwrite of the entry found for `key` (the
`entry->set_tag(tag)` path of `set_tag` and of the callback commit). -/
def JvmtiTagHashmap.setEntryTag (m : JvmtiTagHashmap) (key : Nat) (tag : Int) :
    JvmtiTagHashmap :=
  let h := hashmapHash key m.size
  { m with table := m.table.set h (bucketSetTag key tag (m.table.getD h [])) }

/-- The per-environment `JvmtiTagMap`: one hashmap plus the free-entry
pool.  Since entries are immutable values here, only the pool's population
count (`_free_entries_count`) is observable. -/
structure JvmtiTagMap where
  hashmap : JvmtiTagHashmap
  free_entries_count : Nat
deriving DecidableEq

/-- `JvmtiTagMap::JvmtiTagMap(JvmtiEnv*)`: fresh default hashmap
(`init()`, i.e. size index 0, load factor 4.0) and an empty free list. -/
def JvmtiTagMap.initial : JvmtiTagMap :=
  { hashmap := JvmtiTagHashmap.init 0 4, free_entries_count := 0 }

/-- `JvmtiTagMap::create_entry(oop ref, jlong tag)`: reuse a pooled entry
when available (the recycled node is re-`init`ialised to the same value a
fresh one would carry), otherwise allocate a new one. -/
def JvmtiTagMap.create_entry (tm : JvmtiTagMap) (ref : Nat) (tag : Int) :
    JvmtiTagHashmapEntry × JvmtiTagMap :=
  if tm.free_entries_count = 0 then
    ({ object := ref, tag := tag }, tm)
  else
    ({ object := ref, tag := tag },
     { tm with free_entries_count := tm.free_entries_count - 1 })

/-- `JvmtiTagMap::destroy_entry`: pool the retired entry unless the free
list already holds `max_free_entries` nodes (then it is deallocated). -/
def JvmtiTagMap.destroy_entry (tm : JvmtiTagMap) (max_free : Nat) : JvmtiTagMap :=
  if tm.free_entries_count ≥ max_free then tm
  else { tm with free_entries_count := tm.free_entries_count + 1 }

/-- Collaborator oracles (object model, class introspection, JNI):
* `resolveMirror` is `klassOop_if_java_lang_Class` (for a `java.lang.Class`
  instance, substitute the class descriptor);
* `klassOf` is `o->klass()`;
* `classKlass` is `SystemDictionary::Class_klass()`;
* `sizeOf` is `o->size() * wordSize`;
* `isArray`/`arrayLength` feed the callback's array-length argument;
* `isKlass`/`javaMirror` are used by the tag-query collector to report the
  mirror of a tagged class descriptor. -/
structure VMContext where
  resolveMirror : Nat → Nat
  klassOf : Nat → Nat
  classKlass : Nat
  sizeOf : Nat → Int
  isArray : Nat → Bool
  arrayLength : Nat → Int
  isKlass : Nat → Bool
  javaMirror : Nat → Nat

/-- `tag_for(tag_map, o)`: the entry's tag, or 0 when untagged. -/
def tag_for (tm : JvmtiTagMap) (o : Nat) : Int :=
  match tm.hashmap.find o with
  | none => 0
  | some e => e.tag

/-- `JvmtiTagMap::set_tag(jobject, jlong)`.  The object reference is first
put through the class-mirror substitution; then: untagged and `tag ≠ 0`
creates an entry, untagged and `tag = 0` is a no-op, tagged and `tag = 0`
removes and recycles, tagged and `tag ≠ 0` overwrites in place. -/
def JvmtiTagMap.set_tag (vm : VMContext) (max_free : Nat) (allocOk : Bool)
    (tm : JvmtiTagMap) (object : Nat) (tag : Int) : JvmtiTagMap :=
  let o := vm.resolveMirror object
  match tm.hashmap.find o with
  | none =>
    if tag ≠ 0 then
      let (entry, tm1) := tm.create_entry o tag
      { tm1 with hashmap := tm1.hashmap.add allocOk o entry }
    else
      tm
  | some _ =>
    if tag = 0 then
      let (_, hm1) := tm.hashmap.remove o
      JvmtiTagMap.destroy_entry { tm with hashmap := hm1 } max_free
    else
      { tm with hashmap := tm.hashmap.setEntryTag o tag }

/-- `JvmtiTagMap::get_tag(jobject)`. -/
def JvmtiTagMap.get_tag (vm : VMContext) (tm : JvmtiTagMap) (object : Nat) : Int :=
  tag_for tm (vm.resolveMirror object)

/-- Well-formedness of a hashmap state, maintained by every store
operation: the recorded size is positive, matches the allocated bucket
array and the `_sizes` table slot for `size_index`; every entry sits in
the bucket its object hashes to; no two entries reference the same object;
no entry carries tag 0; and `entry_count` counts the entries. -/
def JvmtiTagHashmap.wf (m : JvmtiTagHashmap) : Prop :=
  0 < m.size ∧
  m.table.length = m.size ∧
  hashmap_sizes.getD m.size_index (-1) = (m.size : Int) ∧
  (∀ i < m.size, ∀ e ∈ m.table.getD i [], hashmapHash e.object m.size = i) ∧
  (m.entries.map (fun e => e.object)).Nodup ∧
  (∀ e ∈ m.entries, e.tag ≠ 0) ∧
  m.entry_count = m.entries.length

/-- Well-formedness of a tag map is that of its hashmap. -/
def JvmtiTagMap.wf (tm : JvmtiTagMap) : Prop :=
  tm.hashmap.wf

/-- State a `CallbackWrapper` captures at construction: the (mirror
substituted) object, its size, the entry found for it, the tag read from
that entry (the initial value of the slot handed to the callback), and
the object's class with that class's tag. -/
structure CallbackWrapper where
  o : Nat
  obj_size : Int
  entry : Option JvmtiTagHashmapEntry
  obj_tag : Int
  klass : Nat
  klass_tag : Int
deriving DecidableEq

/-- The `CallbackWrapper(tag_map, o)` constructor. -/
def CallbackWrapper.construct (vm : VMContext) (tm : JvmtiTagMap) (obj : Nat) :
    CallbackWrapper :=
  let o := vm.resolveMirror obj
  let entry := tm.hashmap.find o
  let klass := if o = obj then vm.klassOf o else vm.classKlass
  { o := o
    obj_size := vm.sizeOf o
    entry := entry
    obj_tag := match entry with | none => 0 | some e => e.tag
    klass := klass
    klass_tag := tag_for tm klass }

/-- `CallbackWrapper::post_callback_tag_update(o, hashmap, entry, obj_tag)`:
run by the destructor on every exit path.  `entry` is the entry captured at
construction; `obj_tag` is the value the callback left in the tag slot. -/
def CallbackWrapper.post_callback_tag_update (tm : JvmtiTagMap) (o : Nat)
    (entry : Option JvmtiTagHashmapEntry) (obj_tag : Int)
    (max_free : Nat) (allocOk : Bool) : JvmtiTagMap :=
  match entry with
  | none =>
    if obj_tag ≠ 0 then
      let (e, tm1) := tm.create_entry o obj_tag
      { tm1 with hashmap := tm1.hashmap.add allocOk o e }
    else
      tm
  | some entry =>
    if obj_tag = 0 then
      let (_, hm1) := tm.hashmap.remove o
      JvmtiTagMap.destroy_entry { tm with hashmap := hm1 } max_free
    else
      if obj_tag ≠ entry.tag then
        { tm with hashmap := tm.hashmap.setEntryTag o obj_tag }
      else
        tm

/-- The destructor of a one-object `CallbackWrapper` given the final value
of the tag slot. -/
def CallbackWrapper.destruct (w : CallbackWrapper) (tm : JvmtiTagMap)
    (obj_slot : Int) (max_free : Nat) (allocOk : Bool) : JvmtiTagMap :=
  CallbackWrapper.post_callback_tag_update tm w.o w.entry obj_slot max_free allocOk

/-- State of a `TwoOopCallbackWrapper`: the base wrapper for the referree
plus the referrer context.  For a self reference the referrer tag slot
aliases the object tag slot and no separate referrer context is read. -/
structure TwoOopCallbackWrapper where
  base : CallbackWrapper
  is_reference_to_self : Bool
  referrer : Nat
  referrer_entry : Option JvmtiTagHashmapEntry
  referrer_obj_tag : Int
  referrer_klass_tag : Int
deriving DecidableEq

/-- The `TwoOopCallbackWrapper(tag_map, referrer, o)` constructor. -/
def TwoOopCallbackWrapper.construct (vm : VMContext) (tm : JvmtiTagMap)
    (referrer obj : Nat) : TwoOopCallbackWrapper :=
  let base := CallbackWrapper.construct vm tm obj
  if referrer = obj then
    { base := base
      is_reference_to_self := true
      referrer := base.o
      referrer_entry := none
      referrer_obj_tag := base.obj_tag
      referrer_klass_tag := base.klass_tag }
  else
    let r := vm.resolveMirror referrer
    let rentry := tm.hashmap.find r
    let k := if r = referrer then vm.klassOf r else vm.classKlass
    { base := base
      is_reference_to_self := false
      referrer := r
      referrer_entry := rentry
      referrer_obj_tag := match rentry with | none => 0 | some e => e.tag
      referrer_klass_tag := tag_for tm k }

/-- The `TwoOopCallbackWrapper` destructor: the derived destructor commits
the referrer slot (skipped for a self reference), then the base destructor
commits the object slot. -/
def TwoOopCallbackWrapper.destruct (w : TwoOopCallbackWrapper) (tm : JvmtiTagMap)
    (obj_slot referrer_slot : Int) (max_free : Nat)
    (allocOk1 allocOk2 : Bool) : JvmtiTagMap :=
  let tm1 :=
    if w.is_reference_to_self then tm
    else CallbackWrapper.post_callback_tag_update tm w.referrer w.referrer_entry
      referrer_slot max_free allocOk1
  CallbackWrapper.post_callback_tag_update tm1 w.base.o w.base.entry obj_slot
    max_free allocOk2

/-! ## GC reconciliation (`JvmtiTagMap::do_weak_oops`) -/

/-- Accumulator threaded through the reconciliation scan: the (mutated)
bucket array, the `delayed_add` side list, the `OBJECT_FREE` tags posted so
far, the number of removed entries, and the free-list population. -/
structure WeakScanState where
  table : List (List JvmtiTagHashmapEntry)
  delayed : List JvmtiTagHashmapEntry
  posted : List Int
  removed : Nat
  free_count : Nat
deriving DecidableEq

/-- The chain walk of one bucket (`while (entry != NULL)` in
`do_weak_oops`).  A dead entry is unlinked, recycled and its tag posted; a
live entry has its reference updated by the collector (`f->do_oop`), and if
its bucket changed it is spliced into a lower bucket immediately or pushed
on the `delayed_add` list for a higher bucket; otherwise it stays.  Returns
the entries remaining in this bucket, in order. -/
def scanBucket (alive : Nat → Bool) (reloc : Nat → Nat) (size pos : Nat)
    (post_object_free : Bool) (max_free : Nat) :
    List JvmtiTagHashmapEntry → WeakScanState →
    List JvmtiTagHashmapEntry × WeakScanState
  | [], s => ([], s)
  | e :: rest, s =>
    if alive e.object = false then
      let s1 : WeakScanState :=
        { s with removed := s.removed + 1
                 free_count := if s.free_count ≥ max_free then s.free_count
                               else s.free_count + 1
                 posted := if post_object_free then s.posted ++ [e.tag]
                           else s.posted }
      scanBucket alive reloc size pos post_object_free max_free rest s1
    else
      let e1 : JvmtiTagHashmapEntry := { e with object := reloc e.object }
      let new_pos := hashmapHash e1.object size
      if new_pos = pos then
        let (kept, s1) :=
          scanBucket alive reloc size pos post_object_free max_free rest s
        (e1 :: kept, s1)
      else if new_pos < pos then
        let s1 := { s with table := tableInsert size s.table e1 }
        scanBucket alive reloc size pos post_object_free max_free rest s1
      else
        let s1 := { s with delayed := e1 :: s.delayed }
        scanBucket alive reloc size pos post_object_free max_free rest s1

/-- One iteration of the bucket scan: process bucket `pos` and store the
surviving chain back. -/
def weakStep (alive : Nat → Bool) (reloc : Nat → Nat) (size : Nat)
    (post_object_free : Bool) (max_free : Nat)
    (s : WeakScanState) (pos : Nat) : WeakScanState :=
  let (kept, s1) := scanBucket alive reloc size pos post_object_free max_free
    (s.table.getD pos []) s
  { s1 with table := s1.table.set pos kept }

/-- The `for (pos = 0; pos < size; ++pos)` scan, as a recursion on the
number of buckets left to process. -/
def weakLoop (alive : Nat → Bool) (reloc : Nat → Nat) (size : Nat)
    (post_object_free : Bool) (max_free : Nat) :
    Nat → Nat → WeakScanState → WeakScanState
  | 0, _, s => s
  | n + 1, pos, s =>
    weakLoop alive reloc size post_object_free max_free n (pos + 1)
      (weakStep alive reloc size post_object_free max_free s pos)

/-- Splice the `delayed_add` entries into their destination buckets after
the scan (`while (delayed_add != NULL)`). -/
def spliceDelayed (size : Nat) :
    List JvmtiTagHashmapEntry → List (List JvmtiTagHashmapEntry) →
    List (List JvmtiTagHashmapEntry)
  | [], t => t
  | e :: rest, t => spliceDelayed size rest (tableInsert size t e)

/-- `JvmtiTagMap::do_weak_oops(is_alive, f)`.  `alive` is the collector's
liveness oracle, `reloc` the post-move reference resolution performed by
`f->do_oop`, `post_object_free` whether the environment has the
`OBJECT_FREE` event enabled.  Returns the new map and the posted tags in
posting order.  Resizing is re-enabled first, before the empty-table early
return. -/
def JvmtiTagMap.do_weak_oops (tm : JvmtiTagMap) (alive : Nat → Bool)
    (reloc : Nat → Nat) (post_object_free : Bool) (max_free : Nat) :
    JvmtiTagMap × List Int :=
  let hashmap := { tm.hashmap with resizing_enabled := true }
  if hashmap.entry_count = 0 then
    ({ tm with hashmap := hashmap }, [])
  else
    let size := hashmap.size
    let s0 : WeakScanState :=
      { table := hashmap.table, delayed := [], posted := [], removed := 0
        free_count := tm.free_entries_count }
    let s1 := weakLoop alive reloc size post_object_free max_free size 0 s0
    let final_table := spliceDelayed size s1.delayed s1.table
    ({ hashmap := { hashmap with table := final_table
                                 entry_count := hashmap.entry_count - s1.removed }
       free_entries_count := s1.free_count },
     s1.posted)

/-! ## Tag queries (`get_objects_with_tags`) -/

/-- `TagObjectCollector::do_entry`: match one stored entry against every
element of the requested tag array, in array order, appending one
(object, tag) pair per matching element; a tagged class descriptor is
reported through its mirror. -/
def TagObjectCollector.do_entry (vm : VMContext) (tags : List Int)
    (entry : JvmtiTagHashmapEntry) : List (Nat × Int) :=
  tags.foldl
    (fun acc t =>
      if t = entry.tag then
        let o := if vm.isKlass entry.object then vm.javaMirror entry.object
                 else entry.object
        acc ++ [(o, entry.tag)]
      else acc)
    []

/-- The collection phase of `get_objects_with_tags`: `entry_iterate` runs
`do_entry` over every entry in bucket order. -/
def collectTagged (vm : VMContext) (tags : List Int) (m : JvmtiTagHashmap) :
    List (Nat × Int) :=
  m.entries.foldl (fun acc e => acc ++ TagObjectCollector.do_entry vm tags e) []

/-- `JvmtiTagMap::get_objects_with_tags` without the result-buffer copy-out
(modelled separately as `TagObjectCollector.result` for the allocation
behaviour): the reported count and the collected (object, tag) pairs. -/
def JvmtiTagMap.get_objects_with_tags (vm : VMContext) (tm : JvmtiTagMap)
    (tags : List Int) : Nat × List (Nat × Int) :=
  let results := collectTagged vm tags tm.hashmap
  (results.length, results)

/-- JVMTI error codes relevant to the result copy-out. -/
inductive JvmtiError where
  | NONE
  | OUT_OF_MEMORY
deriving DecidableEq

/-- Outcome of `TagObjectCollector::result`: the returned error, the
environment allocations still live after the call, the buffer address the
call stored through `object_result_ptr` (if any), and the ghost trace of
addresses passed to `Deallocate`. -/
structure CollectorResultOutcome where
  error : JvmtiError
  mem : List Nat
  object_result : Option Nat
  dealloc_trace : List Nat
deriving DecidableEq

/-- `TagObjectCollector::result(count_ptr, object_result_ptr,
tag_result_ptr)`, modelling the environment allocator.  `mem` is the list
of live allocation addresses; `object_result_ptr`/`tag_result_ptr` are the
ADDRESSES of the caller's result-pointer variables (`none` for `NULL`);
`oracle` yields the address for each successive `env->Allocate` call, or
`none` for an allocation failure.  On a tag-buffer allocation failure
after the object buffer was allocated, the source executes
`_env->Deallocate((unsigned char*)object_result_ptr)` — it passes the
caller's pointer-variable address itself, not the allocated buffer
`*object_result_ptr`. -/
def TagObjectCollector.result (mem : List Nat) (oracle : List (Option Nat))
    (object_result_ptr tag_result_ptr : Option Nat) : CollectorResultOutcome :=
  match object_result_ptr with
  | some p =>
    match oracle with
    | (some buf) :: oracle1 =>
      -- object buffer allocated and stored into *object_result_ptr;
      -- the object references are copied in
      let mem1 := mem ++ [buf]
      match tag_result_ptr with
      | some _ =>
        match oracle1 with
        | (some tbuf) :: _ =>
          { error := JvmtiError.NONE, mem := mem1 ++ [tbuf]
            object_result := some buf, dealloc_trace := [] }
        | _ =>
          -- tag-buffer allocation failed: the rollback deallocates the
          -- address `object_result_ptr` (= p), not the buffer `buf`
          { error := JvmtiError.OUT_OF_MEMORY
            mem := (mem1).erase p
            object_result := some buf
            dealloc_trace := [p] }
      | none =>
        { error := JvmtiError.NONE, mem := mem1, object_result := some buf
          dealloc_trace := [] }
    | _ =>
      { error := JvmtiError.OUT_OF_MEMORY, mem := mem, object_result := none
        dealloc_trace := [] }
  | none =>
    match tag_result_ptr with
    | some _ =>
      match oracle with
      | (some tbuf) :: _ =>
        { error := JvmtiError.NONE, mem := mem ++ [tbuf]
          object_result := none, dealloc_trace := [] }
      | _ =>
        { error := JvmtiError.OUT_OF_MEMORY, mem := mem, object_result := none
          dealloc_trace := [] }
    | none =>
      { error := JvmtiError.NONE, mem := mem, object_result := none
        dealloc_trace := [] }

/-! ## ObjectMarker and the heap walk operation -/

/-- Model of an object's header word (`markOop`): the mark bit borrowed by
the walk, plus the remaining significant content (identity hash, lock
record, ...).  `info = 0` is the host's prototype header: per the
collaborator contract (`markOopDesc::must_be_preserved`), a header that
need not be preserved carries no state beyond the prototype. -/
structure MarkWord where
  marked : Bool
  info : Nat
deriving DecidableEq

/-- `markOopDesc::prototype()`. -/
def MarkWord.prototype : MarkWord := { marked := false, info := 0 }

/-- `mark->set_marked()`. -/
def MarkWord.set_marked (m : MarkWord) : MarkWord := { m with marked := true }

/-- `mark->must_be_preserved(o)`: the header carries significant state. -/
def MarkWord.must_be_preserved (m : MarkWord) : Bool := m.info ≠ 0

/-- The heap as seen by the marker: every object paired with its header
word, plus the two parallel saved-header stacks
(`_saved_oop_stack` / `_saved_mark_stack`). -/
structure ObjectMarkerState where
  heap : List (Nat × MarkWord)
  saved_oop_stack : List Nat
  saved_mark_stack : List MarkWord
deriving DecidableEq

/-- Read an object's header (`o->mark()`). -/
def heapGet (heap : List (Nat × MarkWord)) (o : Nat) : MarkWord :=
  match heap.find? (fun p => p.1 = o) with
  | some p => p.2
  | none => MarkWord.prototype

/-- Write an object's header (`o->set_mark(m)`). -/
def heapSet (heap : List (Nat × MarkWord)) (o : Nat) (m : MarkWord) :
    List (Nat × MarkWord) :=
  heap.map (fun p => if p.1 = o then (p.1, m) else p)

/-- `ObjectMarker::init()`: fresh saved-header stacks. -/
def ObjectMarker.init (heap : List (Nat × MarkWord)) : ObjectMarkerState :=
  { heap := heap, saved_oop_stack := [], saved_mark_stack := [] }

/-- `ObjectMarker::visited(o)`. -/
def ObjectMarker.visited (s : ObjectMarkerState) (o : Nat) : Bool :=
  (heapGet s.heap o).marked

/-- `ObjectMarker::mark(o)`: save the header when it must be preserved,
then overwrite it with the marked prototype. -/
def ObjectMarker.mark (s : ObjectMarkerState) (o : Nat) : ObjectMarkerState :=
  let mark := heapGet s.heap o
  let s1 :=
    if mark.must_be_preserved then
      { s with saved_mark_stack := s.saved_mark_stack ++ [mark]
               saved_oop_stack := s.saved_oop_stack ++ [o] }
    else s
  { s1 with heap := heapSet s1.heap o (MarkWord.prototype.set_marked) }

/-- `ObjectMarker::done()`: restore every marked header to its initial
(prototype) value via `RestoreMarksClosure`, then reapply the saved
interesting headers in stack index order. -/
def ObjectMarker.done (s : ObjectMarkerState) : List (Nat × MarkWord) :=
  let heap1 := s.heap.map
    (fun p => if p.2.marked then (p.1, MarkWord.prototype) else p)
  (s.saved_oop_stack.zip s.saved_mark_stack).foldl
    (fun h q => heapSet h q.1 q.2) heap1

/-- Per-walk state of `VM_HeapWalkOperation`: the marker, the per-class
field-map cache (`JvmtiCachedClassFieldMap::_class_list`, as the list of
classes holding a cached map), and the visit stack. -/
structure HeapWalkState where
  marker : ObjectMarkerState
  cache : List Nat
  visit_stack : List Nat
deriving DecidableEq

/-- One `visit(o)`: mark the object, then enumerate its outbound
references.  The reference enumeration (fields, array elements, class
edges, callbacks) is abstracted by oracles: `refs o` is the list of
referenced objects the callbacks push, `cacheKlass o` whether visiting `o`
populates a field map for `klassOf o` (instance objects do, arrays do
not), and `abort o` whether some callback signalled `JVMTI_VISIT_ABORT`
while visiting `o`. -/
def VM_HeapWalkOperation.visit (klassOf : Nat → Nat) (refs : Nat → List Nat)
    (cacheKlass : Nat → Bool) (abort : Nat → Bool)
    (st : HeapWalkState) (o : Nat) : HeapWalkState × Bool :=
  let marker := ObjectMarker.mark st.marker o
  let cache :=
    if cacheKlass o ∧ klassOf o ∉ st.cache then st.cache ++ [klassOf o]
    else st.cache
  ({ marker := marker, cache := cache, visit_stack := refs o ++ st.visit_stack },
   !abort o)

/-- The drain loop of `VM_HeapWalkOperation::doit`: pop, skip if visited,
otherwise visit; stop on an empty stack or on abort.  `fuel` bounds the
number of iterations (the real loop terminates because each iteration pops
and every visit marks). -/
def VM_HeapWalkOperation.walkLoop (klassOf : Nat → Nat) (refs : Nat → List Nat)
    (cacheKlass : Nat → Bool) (abort : Nat → Bool) :
    Nat → HeapWalkState → HeapWalkState
  | 0, st => st
  | fuel + 1, st =>
    match st.visit_stack with
    | [] => st
    | o :: rest =>
      let st1 := { st with visit_stack := rest }
      if ObjectMarker.visited st1.marker o then
        VM_HeapWalkOperation.walkLoop klassOf refs cacheKlass abort fuel st1
      else
        let (st2, cont) :=
          VM_HeapWalkOperation.visit klassOf refs cacheKlass abort st1 o
        if cont then
          VM_HeapWalkOperation.walkLoop klassOf refs cacheKlass abort fuel st2
        else
          st2

/-- Result of `VM_HeapWalkOperation::doit`: the heap's headers after the
`ObjectMarkerController` destructor ran `ObjectMarker::done()`, and the
field-map cache population after the `ClassFieldMapCacheMark` destructor
ran `clear_cache()` — both destructors run on every exit path, abort
included. -/
structure HeapWalkOutcome where
  finalHeap : List (Nat × MarkWord)
  cachedFieldMapCount : Nat
deriving DecidableEq

/-- `VM_HeapWalkOperation::doit()`: initialise the marker, drain the visit
stack seeded with the initial object or the collected roots, then restore
headers and clear the field-map cache. -/
def VM_HeapWalkOperation.doit (klassOf : Nat → Nat) (refs : Nat → List Nat)
    (cacheKlass : Nat → Bool) (abort : Nat → Bool)
    (heap : List (Nat × MarkWord)) (initial_stack : List Nat) (fuel : Nat) :
    HeapWalkOutcome :=
  let st0 : HeapWalkState :=
    { marker := ObjectMarker.init heap, cache := [], visit_stack := initial_stack }
  let st1 := VM_HeapWalkOperation.walkLoop klassOf refs cacheKlass abort fuel st0
  -- ClassFieldMapCacheMark destructor: JvmtiCachedClassFieldMap::clear_cache
  -- ObjectMarkerController destructor: ObjectMarker::done
  { finalHeap := ObjectMarker.done st1.marker
    cachedFieldMapCount := ([] : List Nat).length }

/-! ## CallbackInvoker -/

/-- JVMTI heap callback control flags (`jvmti.h`). -/
def JVMTI_VISIT_OBJECTS : Nat := 1

/-- Abort flag of the advanced heap callbacks (`jvmti.h`). -/
def JVMTI_VISIT_ABORT : Nat := 2

/-- Heap filter bit: exclude tagged objects (`jvmti.h`). -/
def JVMTI_HEAP_FILTER_TAGGED : Nat := 4

/-- Heap filter bit: exclude untagged objects (`jvmti.h`). -/
def JVMTI_HEAP_FILTER_UNTAGGED : Nat := 8

/-- Heap filter bit: exclude objects with tagged classes (`jvmti.h`). -/
def JVMTI_HEAP_FILTER_CLASS_TAGGED : Nat := 16

/-- Heap filter bit: exclude objects with untagged classes (`jvmti.h`). -/
def JVMTI_HEAP_FILTER_CLASS_UNTAGGED : Nat := 32

/-- `is_filtered_by_heap_filter(obj_tag, klass_tag, heap_filter)`. -/
def is_filtered_by_heap_filter (obj_tag klass_tag : Int) (heap_filter : Nat) :
    Bool :=
  if obj_tag ≠ 0 then
    if heap_filter &&& JVMTI_HEAP_FILTER_TAGGED ≠ 0 then true
    else if klass_tag ≠ 0 then heap_filter &&& JVMTI_HEAP_FILTER_CLASS_TAGGED ≠ 0
    else heap_filter &&& JVMTI_HEAP_FILTER_CLASS_UNTAGGED ≠ 0
  else
    if heap_filter &&& JVMTI_HEAP_FILTER_UNTAGGED ≠ 0 then true
    else if klass_tag ≠ 0 then heap_filter &&& JVMTI_HEAP_FILTER_CLASS_TAGGED ≠ 0
    else heap_filter &&& JVMTI_HEAP_FILTER_CLASS_UNTAGGED ≠ 0

/-- `is_filtered_by_klass_filter(obj, klass_filter)`: with a filter class
set, reject any object whose class is not exactly that class. -/
def is_filtered_by_klass_filter (vm : VMContext) (obj : Nat)
    (klass_filter : Option Nat) : Bool :=
  match klass_filter with
  | none => false
  | some k => vm.klassOf obj ≠ k

/-- The walk-global state the `CallbackInvoker` statics touch: the tag map,
the marker (for `check_for_visit`), the visit stack, and the basic
context's one-entry referrer cache (`_last_referrer`,
`_last_referrer_tag`; the referrer is `NULL` initially). -/
structure InvokerState where
  tag_map : JvmtiTagMap
  marker : ObjectMarkerState
  visit_stack : List Nat
  last_referrer : Option Nat
  last_referrer_tag : Int
deriving DecidableEq

/-- `CallbackInvoker::check_for_visit(obj)`: push the object for traversal
unless it was already visited; always continues. -/
def CallbackInvoker.check_for_visit (st : InvokerState) (obj : Nat) :
    InvokerState :=
  if ObjectMarker.visited st.marker obj then st
  else { st with visit_stack := obj :: st.visit_stack }

/-- The advanced walk context (`AdvancedHeapWalkContext`): heap filter
bitmask and optional class filter.  The callbacks are passed separately as
oracles. -/
structure AdvancedHeapWalkContext where
  heap_filter : Nat
  klass_filter : Option Nat
deriving DecidableEq

/-- Arguments handed to a `jvmtiHeapReferenceCallback`. -/
structure AdvancedCallbackArgs where
  ref_kind : Nat
  reference_info : Option Int
  klass_tag : Int
  referrer_klass_tag : Int
  obj_size : Int
  obj_tag : Int
  referrer_tag : Int
  len : Int
deriving DecidableEq

/-- The agent's response: the returned visit-control flags and the values
left in the tag slots.  For a self reference the two slots alias; the
model then uses `obj_tag` as the final value of the single slot. -/
structure AdvancedCallbackResult where
  res : Nat
  obj_tag : Int
  referrer_tag : Int
deriving DecidableEq

/-- An advanced reference callback as a pure oracle. -/
abbrev AdvancedCallback := AdvancedCallbackArgs → AdvancedCallbackResult

/-- Mask of reference kinds that carry a `jvmtiHeapReferenceInfo` record
(`REF_INFO_MASK`), with the `jvmtiHeapReferenceKind` values of `jvmti.h`:
FIELD = 2, ARRAY_ELEMENT = 3, STATIC_FIELD = 8, CONSTANT_POOL = 9,
STACK_LOCAL = 24, JNI_LOCAL = 25. -/
def REF_INFO_MASK : Nat :=
  (1 <<< 2) ||| (1 <<< 8) ||| (1 <<< 3) ||| (1 <<< 9) ||| (1 <<< 24) |||
  (1 <<< 25)

/-- Result of one `invoke_advanced_object_reference_callback`: the updated
walk state, the returned continue flag (`false` aborts the whole walk),
and the ghost flag recording whether the agent callback was invoked. -/
structure AdvancedInvokeResult where
  state : InvokerState
  cont : Bool
  invoked : Bool
deriving DecidableEq

/-- `CallbackInvoker::invoke_advanced_object_reference_callback`.  With no
callback registered, or when the class filter or the heap filter rejects
the referree, the object is only considered for visiting.  Otherwise the
callback runs inside a `TwoOopCallbackWrapper`, whose destructor commits
the tag slots on every exit path (on the heap-filter early return the
slots are unchanged). -/
def CallbackInvoker.invoke_advanced_object_reference_callback (vm : VMContext)
    (adv : AdvancedHeapWalkContext) (cb : Option AdvancedCallback)
    (max_free : Nat) (allocOk1 allocOk2 : Bool) (st : InvokerState)
    (ref_kind : Nat) (referrer obj : Nat) (index : Int) :
    AdvancedInvokeResult :=
  match cb with
  | none =>
    { state := CallbackInvoker.check_for_visit st obj, cont := true
      invoked := false }
  | some cb =>
    if is_filtered_by_klass_filter vm obj adv.klass_filter then
      { state := CallbackInvoker.check_for_visit st obj, cont := true
        invoked := false }
    else
      let w := TwoOopCallbackWrapper.construct vm st.tag_map referrer obj
      if is_filtered_by_heap_filter w.base.obj_tag w.base.klass_tag
          adv.heap_filter then
        let tm1 := w.destruct st.tag_map w.base.obj_tag w.referrer_obj_tag
          max_free allocOk1 allocOk2
        { state := CallbackInvoker.check_for_visit { st with tag_map := tm1 } obj
          cont := true, invoked := false }
      else
        let len := if vm.isArray obj then vm.arrayLength obj else -1
        let out := cb
          { ref_kind := ref_kind
            reference_info :=
              if (REF_INFO_MASK >>> ref_kind) % 2 = 1 then some index else none
            klass_tag := w.base.klass_tag
            referrer_klass_tag := w.referrer_klass_tag
            obj_size := w.base.obj_size
            obj_tag := w.base.obj_tag
            referrer_tag := w.referrer_obj_tag
            len := len }
        let referrer_slot :=
          if w.is_reference_to_self then out.obj_tag else out.referrer_tag
        let tm1 := w.destruct st.tag_map out.obj_tag referrer_slot max_free
          allocOk1 allocOk2
        let st1 := { st with tag_map := tm1 }
        if out.res &&& JVMTI_VISIT_ABORT ≠ 0 then
          { state := st1, cont := false, invoked := true }
        else if out.res &&& JVMTI_VISIT_OBJECTS ≠ 0 then
          { state := CallbackInvoker.check_for_visit st1 obj, cont := true
            invoked := true }
        else
          { state := st1, cont := true, invoked := true }

/-- `jvmtiIterationControl` of the basic (deprecated) callbacks. -/
inductive JvmtiIterationControl where
  | CONTINUE
  | IGNORE
  | ABORT
deriving DecidableEq

/-- Arguments handed to a basic `jvmtiObjectReferenceCallback`. -/
structure BasicCallbackArgs where
  ref_kind : Nat
  klass_tag : Int
  obj_size : Int
  obj_tag : Int
  referrer_tag : Int
  index : Int
deriving DecidableEq

/-- A basic object-reference callback as a pure oracle: returns the
iteration control and the value written through the tag slot. -/
abbrev BasicCallback := BasicCallbackArgs → JvmtiIterationControl × Int

/-- The referrer tag a basic object-reference report uses: the cached tag
when the referrer is the same as on the previous report, otherwise a fresh
lookup through the class-mirror substitution. -/
def CallbackInvoker.basicReferrerTag (vm : VMContext) (st : InvokerState)
    (referrer : Nat) : Int :=
  if some referrer = st.last_referrer then st.last_referrer_tag
  else tag_for st.tag_map (vm.resolveMirror referrer)

/-- `CallbackInvoker::invoke_basic_object_reference_callback`.  After the
callback, the referrer cache records the referrer and — for a self
reference — the tag value the callback left in the slot, otherwise the
pre-callback referrer tag.  The `CallbackWrapper` destructor commits the
slot value at scope end.  Returns the updated state and the continue
flag. -/
def CallbackInvoker.invoke_basic_object_reference_callback (vm : VMContext)
    (cb : BasicCallback) (max_free : Nat) (allocOk : Bool) (st : InvokerState)
    (ref_kind : Nat) (referrer referree : Nat) (index : Int) :
    InvokerState × Bool :=
  let referrer_tag := CallbackInvoker.basicReferrerTag vm st referrer
  let w := CallbackWrapper.construct vm st.tag_map referree
  let (control, obj_slot) := cb
    { ref_kind := ref_kind, klass_tag := w.klass_tag, obj_size := w.obj_size
      obj_tag := w.obj_tag, referrer_tag := referrer_tag, index := index }
  let st1 := { st with
    last_referrer := some referrer
    last_referrer_tag := if referrer = referree then obj_slot else referrer_tag }
  let st2 :=
    if control = JvmtiIterationControl.CONTINUE then
      CallbackInvoker.check_for_visit st1 referree
    else st1
  let tm1 := w.destruct st2.tag_map obj_slot max_free allocOk
  ({ st2 with tag_map := tm1 },
   if control = JvmtiIterationControl.CONTINUE then true
   else control ≠ JvmtiIterationControl.ABORT)

/-! ## Derived and specification-side definitions -/

/-- Bucket placement: every entry of every bucket hashes to its bucket. -/
def bucketsPlaced (size : Nat) (t : List (List JvmtiTagHashmapEntry)) : Prop :=
  ∀ i < t.length, ∀ e ∈ t.getD i [], hashmapHash e.object size = i

/-- Association-list view of a tag table: the tag of the first entry for
the key, or 0.  Under well-formedness this agrees with `find` through the
buckets. -/
def assocTag (l : List JvmtiTagHashmapEntry) (key : Nat) : Int :=
  match l.find? (fun e => e.object == key) with
  | none => 0
  | some e => e.tag

/-- Tag lookup on a bare hashmap (`tag_for` without the map wrapper). -/
def JvmtiTagHashmap.tagOf (m : JvmtiTagHashmap) (key : Nat) : Int :=
  match m.find key with
  | none => 0
  | some e => e.tag

/-- An entry after the collector moved its referent. -/
def relocEntry (reloc : Nat → Nat) (e : JvmtiTagHashmapEntry) :
    JvmtiTagHashmapEntry :=
  { e with object := reloc e.object }

/-- The surviving entries of a reconciliation pass: the live ones, each
with its reference updated exactly once. -/
def liveEntries (alive : Nat → Bool) (reloc : Nat → Nat)
    (l : List JvmtiTagHashmapEntry) : List JvmtiTagHashmapEntry :=
  (l.filter (fun e => alive e.object)).map (relocEntry reloc)

/-- The tags of the dead entries, in scan order. -/
def deadTags (alive : Nat → Bool) (l : List JvmtiTagHashmapEntry) : List Int :=
  (l.filter (fun e => alive e.object = false)).map (fun e => e.tag)

/-- Apply a sequence of `set_tag` calls; each element carries the object,
the tag, and the allocation outcome of a resize the call might trigger. -/
def applySets (vm : VMContext) (max_free : Nat) (tm : JvmtiTagMap)
    (ops : List (Nat × Int × Bool)) : JvmtiTagMap :=
  ops.foldl (fun acc op => JvmtiTagMap.set_tag vm max_free op.2.2 acc op.1 op.2.1) tm

/-- Specification-side value of a `set_tag` call sequence for one object:
the tag of the most recent call for that object, or 0 when there was none
(a most recent call with tag 0 likewise yields 0). -/
def lastSetTag (ops : List (Nat × Int × Bool)) (o : Nat) : Int :=
  ops.foldl (fun acc op => if op.1 = o then op.2.1 else acc) 0

/-- Tag-map states reachable from a fresh map through the store's
operations: `set_tag`, a `CallbackWrapper` commit (construction and
destructor-commit around one callback), and a GC reconciliation pass
(whose relocation oracle, being an object move, is injective). -/
inductive Reachable (vm : VMContext) : JvmtiTagMap → Prop where
  | initial : Reachable vm JvmtiTagMap.initial
  | set_tag (tm : JvmtiTagMap) (o : Nat) (t : Int) (max_free : Nat)
      (allocOk : Bool) : Reachable vm tm →
      Reachable vm (JvmtiTagMap.set_tag vm max_free allocOk tm o t)
  | callback_commit (tm : JvmtiTagMap) (obj : Nat) (post : Int)
      (max_free : Nat) (allocOk : Bool) : Reachable vm tm →
      Reachable vm
        ((CallbackWrapper.construct vm tm obj).destruct tm post max_free allocOk)
  | reconcile (tm : JvmtiTagMap) (alive : Nat → Bool) (reloc : Nat → Nat)
      (post_object_free : Bool) (max_free : Nat) :
      Function.Injective reloc → Reachable vm tm →
      Reachable vm (tm.do_weak_oops alive reloc post_object_free max_free).1

/-- A concrete collaborator context for witnesses: no class mirrors, no
arrays. -/
def idVM : VMContext :=
  { resolveMirror := id, klassOf := fun _ => 0, classKlass := 0
    sizeOf := fun _ => 8, isArray := fun _ => false, arrayLength := fun _ => -1
    isKlass := fun _ => false, javaMirror := id }

/-- Witness fixture: a five-bucket table holding objects 8 (bucket 1,
tag 2), 16 (bucket 2, tag 3) and 24 (bucket 3, tag 1). -/
def tmFixture : JvmtiTagMap :=
  { hashmap :=
      { size_index := 0, size := 5, entry_count := 3, load_factor := 4
        resize_threshold := 20, resizing_enabled := false
        table := [[], [{ object := 8, tag := 2 }], [{ object := 16, tag := 3 }],
                  [{ object := 24, tag := 1 }], []] }
    free_entries_count := 0 }

/-- Witness fixture: a full table (entry count at the threshold) so that
the next insertion triggers a resize. -/
def tmFull : JvmtiTagHashmap :=
  { size_index := 0, size := 4801, entry_count := 19204, load_factor := 4
    resize_threshold := 19204, resizing_enabled := true
    table := List.replicate 4801 [] }

/-- Witness fixture: a two-object heap, one header with significant
content (an identity hash, say) and one prototype header. -/
def heapFixture : List (Nat × MarkWord) :=
  [(1, { marked := false, info := 7 }), (2, { marked := false, info := 0 })]

/-- Witness fixture: an invoker state over `tmFixture` with a fresh marker
on the two-object heap and an empty visit stack. -/
def stFixture : InvokerState :=
  { tag_map := tmFixture, marker := ObjectMarker.init heapFixture
    visit_stack := [], last_referrer := none, last_referrer_tag := 0 }

/-- The effect of replaying a saved-header list onto one heap cell: the
functional view of the `heapSet` folds that `ObjectMarker::done` performs. -/
def applySaved (qs : List (Nat × MarkWord)) (p : Nat × MarkWord) :
    Nat × MarkWord :=
  qs.foldl (fun p q => if p.1 = q.1 then (p.1, q.2) else p) p

/-- Invariant of the marker during a walk over an initial heap `orig`:
the saved stacks run in parallel, record distinct objects, and hold only
original (significant) headers; the heap keeps its length, and every cell
is either untouched (and its object unsaved) or overwritten with the
marked prototype — with its original header on the save stacks when it was
significant, and equal to the prototype otherwise. -/
def MarkerInv (orig : List (Nat × MarkWord)) (s : ObjectMarkerState) : Prop :=
  s.saved_oop_stack.length = s.saved_mark_stack.length ∧
  s.saved_oop_stack.Nodup ∧
  (∀ q ∈ s.saved_oop_stack.zip s.saved_mark_stack,
     q ∈ orig ∧ q.2.must_be_preserved = true) ∧
  s.heap.length = orig.length ∧
  ∀ i (hi : i < orig.length) (hs : i < s.heap.length),
    (s.heap[i] = orig[i] ∧ (orig[i]).1 ∉ s.saved_oop_stack) ∨
    (s.heap[i] = ((orig[i]).1, MarkWord.prototype.set_marked) ∧
     ((orig[i]).2.must_be_preserved = true →
        orig[i] ∈ s.saved_oop_stack.zip s.saved_mark_stack) ∧
     ((orig[i]).2.must_be_preserved = false →
        (orig[i]).2 = MarkWord.prototype))

/-! # Lemmas: generic list and bucket-table facts -/

theorem getD_set_self {α : Type} (l : List α) (i : Nat) (v d : α)
    (h : i < l.length) : (l.set i v).getD i d = v := by
  rw [List.getD_eq_getElem _ _ (by simpa using h)]
  simp [List.getElem_set]

theorem getD_set_ne {α : Type} (l : List α) {i j : Nat} (v d : α)
    (h : j ≠ i) : (l.set i v).getD j d = l.getD j d := by
  rcases Nat.lt_or_ge j l.length with hj | hj
  · rw [List.getD_eq_getElem _ _ (by simpa using hj), List.getD_eq_getElem _ _ hj]
    rw [List.getElem_set]
    exact if_neg (fun hc => h hc.symm)
  · rw [List.getD_eq_default _ _ (by simpa using hj), List.getD_eq_default _ _ hj]

theorem getD_replicate_nil {α : Type} (n i : Nat) :
    (List.replicate n ([] : List α)).getD i [] = [] := by
  rcases Nat.lt_or_ge i n with hi | hi
  · rw [List.getD_eq_getElem _ _ (by simpa using hi)]
    simp
  · rw [List.getD_eq_default]
    simpa using hi

theorem mem_getD_flatten {α : Type} {t : List (List α)} {x : α} {i : Nat}
    (h : x ∈ t.getD i []) : x ∈ t.flatten := by
  rcases Nat.lt_or_ge i t.length with hi | hi
  · rw [List.getD_eq_getElem _ _ hi] at h
    exact List.mem_flatten.mpr ⟨t[i], List.getElem_mem hi, h⟩
  · rw [List.getD_eq_default _ _ hi] at h
    cases h

theorem mem_flatten_getD {α : Type} {t : List (List α)} {x : α}
    (h : x ∈ t.flatten) : ∃ i, i < t.length ∧ x ∈ t.getD i [] := by
  rcases List.mem_flatten.mp h with ⟨b, hb, hx⟩
  rcases List.getElem_of_mem hb with ⟨i, hi, rfl⟩
  exact ⟨i, hi, by rw [List.getD_eq_getElem _ _ hi]; exact hx⟩

theorem drop_set_of_lt {α : Type} (l : List α) (m n : Nat) (a : α)
    (h : m < n) : (l.set m a).drop n = l.drop n := by
  induction l generalizing m n with
  | nil => simp
  | cons x tail ih =>
    cases m with
    | zero =>
      cases n with
      | zero => exact absurd h (by omega)
      | succ k => simp
    | succ m1 =>
      cases n with
      | zero => exact absurd h (by omega)
      | succ k => simpa using ih m1 k (by omega)

theorem flatten_set_perm {α : Type} (t : List (List α)) (i : Nat)
    (v : List α) (h : i < t.length) :
    List.Perm ((t.set i v).flatten ++ t.getD i []) (t.flatten ++ v) := by
  induction t generalizing i with
  | nil => simp at h
  | cons a rest ih =>
    cases i with
    | zero =>
      simp only [List.set_cons_zero, List.flatten_cons, List.getD_cons_zero]
      rw [← Multiset.coe_eq_coe]
      simp only [← Multiset.coe_add]
      abel
    | succ j =>
      have hj : j < rest.length := by simpa using h
      simp only [List.set_cons_succ, List.flatten_cons, List.getD_cons_succ,
        List.append_assoc]
      exact List.Perm.append_left a (ih j hj)

/-- Transfer of list permutations through the multiset quotient, used for
the bucket-shuffling arguments below. -/
theorem perm_of_multiset {α : Type} {l₁ l₂ : List α}
    (h : (l₁ : Multiset α) = (l₂ : Multiset α)) : l₁.Perm l₂ :=
  Multiset.coe_eq_coe.mp h

theorem tableInsert_length (size : Nat) (t : List (List JvmtiTagHashmapEntry))
    (e : JvmtiTagHashmapEntry) : (tableInsert size t e).length = t.length := by
  simp [tableInsert]

theorem tableInsert_flatten_perm {size : Nat}
    {t : List (List JvmtiTagHashmapEntry)} {e : JvmtiTagHashmapEntry}
    (h : hashmapHash e.object size < t.length) :
    List.Perm (tableInsert size t e).flatten (e :: t.flatten) := by
  have h1 := flatten_set_perm t (hashmapHash e.object size)
    (e :: t.getD (hashmapHash e.object size) []) h
  have h2 : tableInsert size t e
      = t.set (hashmapHash e.object size)
          (e :: t.getD (hashmapHash e.object size) []) := rfl
  rw [h2, ← List.perm_append_right_iff (t.getD (hashmapHash e.object size) [])]
  refine h1.trans ?_
  refine perm_of_multiset ?_
  simp only [← Multiset.cons_coe, ← Multiset.coe_add, ← Multiset.singleton_add]
  abel

theorem hashmapHash_lt (key : Nat) {size : Nat} (h : 0 < size) :
    hashmapHash key size < size :=
  Nat.mod_lt _ h

theorem bucketsPlaced_tableInsert {size : Nat}
    {t : List (List JvmtiTagHashmapEntry)} {e : JvmtiTagHashmapEntry}
    (hp : bucketsPlaced size t) (hlen : t.length = size) (hs : 0 < size) :
    bucketsPlaced size (tableInsert size t e) := by
  intro i hi x hx
  rw [tableInsert_length, hlen] at hi
  have h2 : tableInsert size t e
      = t.set (hashmapHash e.object size)
          (e :: t.getD (hashmapHash e.object size) []) := rfl
  rw [h2] at hx
  by_cases hieq : i = hashmapHash e.object size
  · subst hieq
    rw [getD_set_self _ _ _ _ (by rw [hlen]; exact hashmapHash_lt _ hs)] at hx
    rcases List.mem_cons.mp hx with rfl | hx
    · rfl
    · exact hp _ (by omega) x hx
  · rw [getD_set_ne _ _ _ hieq] at hx
    exact hp _ (by omega) x hx

theorem foldl_tableInsert_length (size : Nat)
    (l : List JvmtiTagHashmapEntry) (t : List (List JvmtiTagHashmapEntry)) :
    (l.foldl (tableInsert size) t).length = t.length := by
  induction l generalizing t with
  | nil => rfl
  | cons e rest ih => rw [List.foldl_cons, ih, tableInsert_length]

theorem foldl_tableInsert_flatten_perm {size : Nat}
    (l : List JvmtiTagHashmapEntry) (t : List (List JvmtiTagHashmapEntry))
    (hlen : t.length = size) (hs : 0 < size) :
    List.Perm (l.foldl (tableInsert size) t).flatten (t.flatten ++ l) := by
  induction l generalizing t with
  | nil => simp
  | cons e rest ih =>
    rw [List.foldl_cons]
    refine (ih _ (by rw [tableInsert_length, hlen])).trans ?_
    have h1 : List.Perm ((tableInsert size t e).flatten ++ rest)
        ((e :: t.flatten) ++ rest) :=
      List.Perm.append_right rest (tableInsert_flatten_perm (by rw [hlen]; exact hashmapHash_lt _ hs))
    refine h1.trans ?_
    refine perm_of_multiset ?_
    simp only [← Multiset.cons_coe, ← Multiset.coe_add, ← Multiset.singleton_add]
    abel

theorem bucketsPlaced_foldl_tableInsert {size : Nat}
    (l : List JvmtiTagHashmapEntry) {t : List (List JvmtiTagHashmapEntry)}
    (hp : bucketsPlaced size t) (hlen : t.length = size) (hs : 0 < size) :
    bucketsPlaced size (l.foldl (tableInsert size) t) := by
  induction l generalizing t with
  | nil => exact hp
  | cons e rest ih =>
    rw [List.foldl_cons]
    exact ih (bucketsPlaced_tableInsert hp hlen hs) (by rw [tableInsert_length, hlen])

theorem bucketsPlaced_replicate (size n : Nat) :
    bucketsPlaced size (List.replicate n ([] : List JvmtiTagHashmapEntry)) := by
  intro i _ e he
  rw [getD_replicate_nil] at he
  cases he

/-! # Lemmas: find and the association view under well-formedness -/

theorem bucketFind_eq_some {key : Nat} :
    ∀ {l : List JvmtiTagHashmapEntry} {e : JvmtiTagHashmapEntry},
      bucketFind key l = some e → e ∈ l ∧ e.object = key
  | [], e => by simp [bucketFind]
  | a :: rest, e => by
    rw [bucketFind]
    by_cases ha : a.object = key
    · rw [if_pos ha]
      rintro ⟨rfl⟩
      exact ⟨List.mem_cons_self _ _, ha⟩
    · rw [if_neg ha]
      intro h
      rcases bucketFind_eq_some h with ⟨hmem, hobj⟩
      exact ⟨List.mem_cons_of_mem _ hmem, hobj⟩

theorem bucketFind_eq_none_iff {key : Nat} :
    ∀ {l : List JvmtiTagHashmapEntry},
      bucketFind key l = none ↔ ∀ e ∈ l, e.object ≠ key
  | [] => by simp [bucketFind]
  | a :: rest => by
    rw [bucketFind]
    by_cases ha : a.object = key
    · simp only [if_pos ha]
      constructor
      · intro h; cases h
      · intro h; exact absurd ha (h a (List.mem_cons_self _ _))
    · simp only [if_neg ha]
      rw [bucketFind_eq_none_iff]
      constructor
      · intro h e he
        rcases List.mem_cons.mp he with rfl | he
        · exact ha
        · exact h e he
      · intro h e he; exact h e (List.mem_cons_of_mem _ he)

theorem bucketFind_of_mem {key : Nat} :
    ∀ {l : List JvmtiTagHashmapEntry} {e : JvmtiTagHashmapEntry}, e ∈ l →
      e.object = key → (l.map (fun x => x.object)).Nodup →
      bucketFind key l = some e
  | [], e => by simp
  | a :: rest, e => by
    intro he hobj hnd
    rw [bucketFind]
    rcases List.mem_cons.mp he with rfl | he
    · rw [if_pos hobj]
    · have ha : a.object ≠ key := by
        intro hc
        have : e.object ∈ rest.map (fun x => x.object) :=
          List.mem_map_of_mem _ he
        rw [hobj, ← hc] at this
        exact (List.nodup_cons.mp (by simpa using hnd)).1 this
      rw [if_neg ha]
      exact bucketFind_of_mem he hobj (List.nodup_cons.mp (by simpa using hnd)).2

theorem find_some_mem {m : JvmtiTagHashmap} {key : Nat}
    {e : JvmtiTagHashmapEntry} (h : m.find key = some e) :
    e ∈ m.entries ∧ e.object = key := by
  rcases bucketFind_eq_some h with ⟨hmem, hobj⟩
  exact ⟨mem_getD_flatten hmem, hobj⟩

theorem wf_mem_bucket {m : JvmtiTagHashmap} (hwf : m.wf)
    {e : JvmtiTagHashmapEntry} (he : e ∈ m.entries) :
    e ∈ m.table.getD (hashmapHash e.object m.size) [] := by
  obtain ⟨hs, hlen, hsz, hplaced, hnd, hnz, hcount⟩ := hwf
  rcases mem_flatten_getD he with ⟨i, hi, hei⟩
  have : hashmapHash e.object m.size = i := hplaced i (by omega) e hei
  rw [this]
  exact hei

theorem wf_find_some_of_mem {m : JvmtiTagHashmap} (hwf : m.wf)
    {e : JvmtiTagHashmapEntry} {key : Nat} (he : e ∈ m.entries)
    (hobj : e.object = key) : m.find key = some e := by
  have hb := wf_mem_bucket hwf he
  rw [hobj] at hb
  obtain ⟨hs, hlen, hsz, hplaced, hnd, hnz, hcount⟩ := hwf
  have hnd2 : ((m.table.getD (hashmapHash key m.size) []).map
      (fun x => x.object)).Nodup := by
    have hsub : (m.table.getD (hashmapHash key m.size) []).Sublist m.entries := by
      rcases Nat.lt_or_ge (hashmapHash key m.size) m.table.length with hi | hi
      · rw [List.getD_eq_getElem _ _ hi]
        exact List.sublist_flatten_of_mem (List.getElem_mem hi)
      · rw [List.getD_eq_default _ _ hi]
        exact List.nil_sublist _
    exact List.Nodup.sublist (hsub.map _) hnd
  exact bucketFind_of_mem hb hobj hnd2

theorem wf_find_none_iff {m : JvmtiTagHashmap} (hwf : m.wf) {key : Nat} :
    m.find key = none ↔ ∀ e ∈ m.entries, e.object ≠ key := by
  constructor
  · intro hnone e he hobj
    rw [wf_find_some_of_mem hwf he hobj] at hnone
    cases hnone
  · intro h
    rw [JvmtiTagHashmap.find, bucketFind_eq_none_iff]
    intro e he
    exact h e (mem_getD_flatten he)

theorem wf_find_some_iff {m : JvmtiTagHashmap} (hwf : m.wf) {key : Nat}
    {e : JvmtiTagHashmapEntry} :
    m.find key = some e ↔ (e ∈ m.entries ∧ e.object = key) := by
  constructor
  · exact find_some_mem
  · intro ⟨he, hobj⟩
    exact wf_find_some_of_mem hwf he hobj

/-! # Lemmas: the store operations preserve well-formedness -/

theorem hashmap_sizes_getD_pos (i : Nat)
    (h : ¬ hashmap_sizes.getD i (-1) < 0) :
    0 < (hashmap_sizes.getD i (-1)).toNat := by
  rcases Nat.lt_or_ge i 12 with hi | hi
  · interval_cases i <;> revert h <;> decide
  · rw [List.getD_eq_default _ _ (by simp [hashmap_sizes]; omega)] at h
    exact absurd (by decide) h

theorem wf_placed {m : JvmtiTagHashmap} (hwf : m.wf) :
    bucketsPlaced m.size m.table := by
  obtain ⟨hs, hlen, hsz, hplaced, _, _, _⟩ := hwf
  intro i hi e he
  exact hplaced i (by omega) e he

theorem resize_spec {m : JvmtiTagHashmap} (hwf : m.wf) (ok : Bool) :
    (m.resize ok).wf ∧ List.Perm (m.resize ok).entries m.entries ∧
    (m.resize ok).entry_count = m.entry_count := by
  obtain ⟨hs, hlen, hsz, hplaced, hnd, hnz, hcount⟩ := hwf
  rw [JvmtiTagHashmap.resize]
  by_cases hterm : hashmap_sizes.getD (m.size_index + 1) (-1) < 0
  · rw [if_pos hterm]
    exact ⟨⟨hs, hlen, hsz, hplaced, hnd, hnz, hcount⟩, List.Perm.refl _, rfl⟩
  · rw [if_neg hterm]
    by_cases hok : ok = false
    · rw [if_pos hok]
      exact ⟨⟨hs, hlen, hsz, hplaced, hnd, hnz, hcount⟩, List.Perm.refl _, rfl⟩
    · rw [if_neg hok]
      have hpos : 0 < (hashmap_sizes.getD (m.size_index + 1) (-1)).toNat :=
        hashmap_sizes_getD_pos _ hterm
      have hrlen : (List.replicate (hashmap_sizes.getD (m.size_index + 1) (-1)).toNat
          ([] : List JvmtiTagHashmapEntry)).length
          = (hashmap_sizes.getD (m.size_index + 1) (-1)).toNat := by
        simp
      have hperm : List.Perm
          (m.table.flatten.foldl
            (tableInsert (hashmap_sizes.getD (m.size_index + 1) (-1)).toNat)
            (List.replicate (hashmap_sizes.getD (m.size_index + 1) (-1)).toNat [])).flatten
          m.table.flatten := by
        refine (foldl_tableInsert_flatten_perm _ _ hrlen hpos).trans ?_
        simp
      refine ⟨⟨hpos, ?_, ?_, ?_, ?_, ?_, ?_⟩, ?_, rfl⟩
      · rw [foldl_tableInsert_length, hrlen]
      · simp only
        rw [Int.toNat_of_nonneg (by omega)]
      · simp only
        intro i hi e he
        have hp := bucketsPlaced_foldl_tableInsert m.table.flatten
          (bucketsPlaced_replicate _ _) hrlen hpos
        refine hp i ?_ e he
        rw [foldl_tableInsert_length, hrlen]
        omega
      · exact (List.Perm.nodup_iff (hperm.map _)).mpr hnd
      · intro e he
        exact hnz e (hperm.mem_iff.mp he)
      · simp only
        rw [hcount]
        exact (hperm.length_eq).symm ▸ rfl
      · exact hperm

theorem resize_size_unchanged_of_fail {m : JvmtiTagHashmap} :
    (m.resize false).size = m.size ∧ (m.resize false).table = m.table ∧
    (m.resize false).entry_count = m.entry_count := by
  rw [JvmtiTagHashmap.resize]
  by_cases hterm : hashmap_sizes.getD (m.size_index + 1) (-1) < 0
  · rw [if_pos hterm]
    exact ⟨rfl, rfl, rfl⟩
  · rw [if_neg hterm, if_pos rfl]
    exact ⟨rfl, rfl, rfl⟩

theorem add_spec {m : JvmtiTagHashmap} (hwf : m.wf) (ok : Bool) {key : Nat}
    {entry : JvmtiTagHashmapEntry}
    (hno : ∀ e ∈ m.entries, e.object ≠ key)
    (hobj : entry.object = key) (htag : entry.tag ≠ 0) :
    (m.add ok key entry).wf ∧
    List.Perm (m.add ok key entry).entries (entry :: m.entries) ∧
    (m.add ok key entry).entry_count = m.entry_count + 1 := by
  obtain ⟨hs, hlen, hsz, hplaced, hnd, hnz, hcount⟩ := hwf
  set m1 : JvmtiTagHashmap :=
    { m with table := m.table.set (hashmapHash key m.size)
               (entry :: m.table.getD (hashmapHash key m.size) [])
             entry_count := m.entry_count + 1 } with hm1
  have hadd : m.add ok key entry =
      if m1.entry_count > m1.resize_threshold ∧ m1.resizing_enabled then
        m1.resize ok
      else m1 := rfl
  have htbl : m1.table = tableInsert m.size m.table entry := by
    rw [hm1]
    simp only [tableInsert, hobj]
  have hperm1 : List.Perm m1.entries (entry :: m.entries) := by
    show List.Perm m1.table.flatten (entry :: m.table.flatten)
    rw [htbl]
    exact tableInsert_flatten_perm (by rw [hlen, hobj]; exact hashmapHash_lt _ hs)
  have hwf1 : m1.wf := by
    refine ⟨hs, ?_, hsz, ?_, ?_, ?_, ?_⟩
    · rw [htbl, tableInsert_length, hlen]
    · intro i hi e he
      rw [htbl] at he
      have hm1size : m1.size = m.size := rfl
      rw [hm1size] at hi
      have hp : bucketsPlaced m.size (tableInsert m.size m.table entry) :=
        bucketsPlaced_tableInsert
          (fun i hi e he => hplaced i (by omega) e he) hlen hs
      exact hp i (by rw [tableInsert_length, hlen]; omega) e he
    · refine (List.Perm.nodup_iff (hperm1.map _)).mpr ?_
      rw [List.map_cons, List.nodup_cons]
      refine ⟨?_, hnd⟩
      intro hc
      rcases List.mem_map.mp hc with ⟨x, hx, hxo⟩
      exact hno x hx (by rw [← hobj, hxo])
    · intro e he
      rcases List.mem_cons.mp (hperm1.mem_iff.mp he) with rfl | he
      · exact htag
      · exact hnz e he
    · show m.entry_count + 1 = m1.entries.length
      rw [hperm1.length_eq, List.length_cons, hcount]
  rw [hadd]
  by_cases hcond : m1.entry_count > m1.resize_threshold ∧ m1.resizing_enabled
  · rw [if_pos hcond]
    obtain ⟨hwf2, hperm2, hcnt2⟩ := resize_spec hwf1 ok
    exact ⟨hwf2, hperm2.trans hperm1, hcnt2⟩
  · rw [if_neg hcond]
    exact ⟨hwf1, hperm1, rfl⟩

theorem bucketRemove_of_find_some {key : Nat} :
    ∀ {l : List JvmtiTagHashmapEntry} {e : JvmtiTagHashmapEntry},
      bucketFind key l = some e →
      (bucketRemove key l).1 = some e ∧
      List.Perm l (e :: (bucketRemove key l).2) ∧
      l.length = (bucketRemove key l).2.length + 1 ∧
      (∀ x ∈ (bucketRemove key l).2, x ∈ l)
  | [], e => by simp [bucketFind]
  | a :: rest, e => by
    rw [bucketFind, bucketRemove]
    by_cases ha : a.object = key
    · rw [if_pos ha, if_pos ha]
      rintro ⟨rfl⟩
      exact ⟨rfl, List.Perm.refl _, by simp,
        fun x hx => List.mem_cons_of_mem _ hx⟩
    · rw [if_neg ha, if_neg ha]
      intro h
      obtain ⟨h1, h2, h3, h4⟩ := bucketRemove_of_find_some h
      refine ⟨by simpa using h1, ?_, by simp [← h3], ?_⟩
      · refine (h2.cons a).trans (List.Perm.swap e a _)
      · intro x hx
        rcases List.mem_cons.mp hx with rfl | hx
        · exact List.mem_cons_self _ _
        · exact List.mem_cons_of_mem _ (h4 x hx)

theorem remove_spec {m : JvmtiTagHashmap} (hwf : m.wf) {key : Nat}
    {e : JvmtiTagHashmapEntry} (hfind : m.find key = some e) :
    (m.remove key).1 = some e ∧ (m.remove key).2.wf ∧
    List.Perm m.entries (e :: (m.remove key).2.entries) ∧
    (m.remove key).2.entry_count = m.entry_count - 1 ∧
    (m.remove key).2.size = m.size := by
  obtain ⟨hs, hlen, hsz, hplaced, hnd, hnz, hcount⟩ := hwf
  obtain ⟨h1, h2, h3, h4⟩ := bucketRemove_of_find_some hfind
  have hhlt : hashmapHash key m.size < m.table.length := by
    rw [hlen]; exact hashmapHash_lt _ hs
  have hbr : bucketRemove key (m.table.getD (hashmapHash key m.size) [])
      = (some e,
         (bucketRemove key (m.table.getD (hashmapHash key m.size) [])).2) := by
    rw [← h1]
  have hrm : m.remove key
      = (some e,
         { m with
             table := m.table.set (hashmapHash key m.size)
               (bucketRemove key (m.table.getD (hashmapHash key m.size) [])).2
             entry_count := m.entry_count - 1 }) := by
    rw [JvmtiTagHashmap.remove, hbr]
  set bucket1 := (bucketRemove key (m.table.getD (hashmapHash key m.size) [])).2
    with hb1
  rw [hrm]
  have hfsp := flatten_set_perm m.table (hashmapHash key m.size) bucket1 hhlt
  have hperm : List.Perm m.entries
      (e :: (m.table.set (hashmapHash key m.size) bucket1).flatten) := by
    refine perm_of_multiset ?_
    simp only [JvmtiTagHashmap.entries]
    have e1 := Multiset.coe_eq_coe.mpr hfsp
    simp only [← Multiset.coe_add] at e1
    have e2 : ((m.table.getD (hashmapHash key m.size) []) : Multiset _)
        = {e} + (bucket1 : Multiset _) := by
      have h2x := Multiset.coe_eq_coe.mpr h2
      simpa only [← Multiset.cons_coe, ← Multiset.singleton_add] using h2x
    rw [e2, ← add_assoc] at e1
    have e4 := add_right_cancel e1
    simp only [← Multiset.cons_coe, ← Multiset.singleton_add]
    rw [← e4, add_comm]
  refine ⟨rfl, ⟨hs, ?_, hsz, ?_, ?_, ?_, ?_⟩, hperm, rfl, rfl⟩
  · simp only [List.length_set]
    exact hlen
  · intro i hi x hx
    have hi2 : i < m.size := hi
    by_cases hieq : i = hashmapHash key m.size
    · subst hieq
      rw [getD_set_self _ _ _ _ hhlt] at hx
      exact hplaced _ hi2 x (h4 x hx)
    · rw [getD_set_ne _ _ _ hieq] at hx
      exact hplaced _ hi2 x hx
  · have hx := (List.Perm.nodup_iff (hperm.map (fun x => x.object))).mp hnd
    rw [List.map_cons, List.nodup_cons] at hx
    exact hx.2
  · intro x hx
    exact hnz x (hperm.mem_iff.mpr (List.mem_cons_of_mem _ hx))
  · show m.entry_count - 1
      = (m.table.set (hashmapHash key m.size) bucket1).flatten.length
    have hl := hperm.length_eq
    rw [List.length_cons] at hl
    have hc2 : m.entry_count = m.entries.length := hcount
    omega

theorem wf_bucket_nodup {m : JvmtiTagHashmap} (hwf : m.wf) (i : Nat) :
    ((m.table.getD i []).map (fun x => x.object)).Nodup := by
  obtain ⟨hs, hlen, hsz, hplaced, hnd, hnz, hcount⟩ := hwf
  have hsub : (m.table.getD i []).Sublist m.table.flatten := by
    rcases Nat.lt_or_ge i m.table.length with hi | hi
    · rw [List.getD_eq_getElem _ _ hi]
      exact List.sublist_flatten_of_mem (List.getElem_mem hi)
    · rw [List.getD_eq_default _ _ hi]
      exact List.nil_sublist _
  exact List.Nodup.sublist (hsub.map _) hnd

theorem map_noKey_eq_self {key : Nat} {t : Int} :
    ∀ {l : List JvmtiTagHashmapEntry}, (∀ x ∈ l, x.object ≠ key) →
      l.map (fun x => if x.object = key then { x with tag := t } else x) = l
  | [], _ => rfl
  | a :: rest, h => by
    rw [List.map_cons, if_neg (h a (List.mem_cons_self _ _)),
      map_noKey_eq_self (fun x hx => h x (List.mem_cons_of_mem _ hx))]

theorem bucketSetTag_eq_map {key : Nat} {t : Int} :
    ∀ {l : List JvmtiTagHashmapEntry}, ((l.map (fun x => x.object)).Nodup) →
      bucketSetTag key t l
        = l.map (fun x => if x.object = key then { x with tag := t } else x)
  | [], _ => rfl
  | a :: rest, h => by
    rw [bucketSetTag, List.map_cons]
    rw [List.map_cons] at h
    have h2 := List.nodup_cons.mp h
    by_cases ha : a.object = key
    · rw [if_pos ha, if_pos ha, map_noKey_eq_self]
      intro x hx hc
      refine h2.1 ?_
      have hxm : x.object ∈ rest.map (fun x => x.object) :=
        List.mem_map_of_mem _ hx
      rwa [hc, ← ha] at hxm
    · rw [if_neg ha, if_neg ha, bucketSetTag_eq_map h2.2]

theorem getD_map_nil (t : List (List JvmtiTagHashmapEntry))
    (g : JvmtiTagHashmapEntry → JvmtiTagHashmapEntry) (i : Nat) :
    (t.map (fun b => b.map g)).getD i [] = (t.getD i []).map g := by
  rcases Nat.lt_or_ge i t.length with hi | hi
  · rw [List.getD_eq_getElem _ _ (by simpa using hi), List.getD_eq_getElem _ _ hi]
    exact List.getElem_map _
  · rw [List.getD_eq_default _ _ (by simpa using hi), List.getD_eq_default _ _ hi]
    rfl

theorem setEntryTag_table_eq_map {m : JvmtiTagHashmap} (hwf : m.wf)
    (key : Nat) (t : Int) :
    (m.setEntryTag key t).table
      = m.table.map (fun b =>
          b.map (fun x => if x.object = key then { x with tag := t } else x)) := by
  obtain ⟨hs, hlen, hsz, hplaced, hnd, hnz, hcount⟩ := hwf
  have hhlt : hashmapHash key m.size < m.table.length := by
    rw [hlen]; exact hashmapHash_lt _ hs
  refine List.ext_getElem (by simp [JvmtiTagHashmap.setEntryTag]) ?_
  intro i h1 h2
  have hi : i < m.table.length := by
    simpa [JvmtiTagHashmap.setEntryTag] using h1
  show (m.table.set (hashmapHash key m.size)
      (bucketSetTag key t (m.table.getD (hashmapHash key m.size) [])))[i]
    = (m.table.map _)[i]
  rw [List.getElem_set, List.getElem_map]
  by_cases hieq : hashmapHash key m.size = i
  · rw [if_pos hieq]
    rw [← List.getD_eq_getElem m.table [] hi, ← hieq]
    exact bucketSetTag_eq_map (wf_bucket_nodup ⟨hs, hlen, hsz, hplaced, hnd, hnz, hcount⟩ _)
  · rw [if_neg hieq]
    refine (map_noKey_eq_self ?_).symm
    intro x hx hc
    have := hplaced i (by omega) x
      (by rw [List.getD_eq_getElem _ _ hi]; exact hx)
    rw [hc] at this
    exact hieq this

theorem setEntryTag_entries_eq {m : JvmtiTagHashmap} (hwf : m.wf)
    (key : Nat) (t : Int) :
    (m.setEntryTag key t).entries
      = m.entries.map (fun x => if x.object = key then { x with tag := t } else x) := by
  show (m.setEntryTag key t).table.flatten = _
  rw [setEntryTag_table_eq_map hwf, ← List.map_flatten]
  rfl

theorem setEntryTag_wf {m : JvmtiTagHashmap} (hwf : m.wf) {key : Nat}
    {t : Int} (ht : t ≠ 0) : (m.setEntryTag key t).wf := by
  have htbl := setEntryTag_table_eq_map hwf key t
  have hent := setEntryTag_entries_eq hwf key t
  obtain ⟨hs, hlen, hsz, hplaced, hnd, hnz, hcount⟩ := hwf
  have hobjmap : ∀ l : List JvmtiTagHashmapEntry,
      (l.map (fun x => if x.object = key then { x with tag := t } else x)).map
        (fun x => x.object) = l.map (fun x => x.object) := by
    intro l
    rw [List.map_map]
    refine List.map_congr_left ?_
    intro x _
    by_cases hx : x.object = key <;> simp [hx]
  refine ⟨hs, ?_, hsz, ?_, ?_, ?_, ?_⟩
  · rw [htbl, List.length_map]
    exact hlen
  · intro i hi x hx
    have hi2 : i < m.size := hi
    rw [htbl, getD_map_nil] at hx
    rcases List.mem_map.mp hx with ⟨y, hy, rfl⟩
    have hobj : (if y.object = key then { y with tag := t } else y).object
        = y.object := by
      by_cases hyk : y.object = key <;> simp [hyk]
    rw [hobj]
    exact hplaced i hi2 y hy
  · rw [hent, hobjmap]
    exact hnd
  · intro x hx
    rw [hent] at hx
    rcases List.mem_map.mp hx with ⟨y, hy, rfl⟩
    by_cases hyk : y.object = key
    · simpa [hyk] using ht
    · simpa [hyk] using hnz y hy
  · rw [hent, List.length_map]
    exact hcount

/-! # Lemmas: the association view -/

theorem find?_object_eq_some_of_mem {key : Nat} :
    ∀ {l : List JvmtiTagHashmapEntry} {e : JvmtiTagHashmapEntry}, e ∈ l →
      e.object = key → ((l.map (fun x => x.object)).Nodup) →
      l.find? (fun x => x.object == key) = some e
  | [], e => by simp
  | a :: rest, e => by
    intro he hobj hnd
    rw [List.map_cons] at hnd
    have h2 := List.nodup_cons.mp hnd
    rcases List.mem_cons.mp he with rfl | he
    · rw [@List.find?_cons_of_pos _ (fun x => x.object == key) e rest
        (by simpa using hobj)]
    · have ha : ¬ ((fun x => x.object == key) a) = true := by
        simp only [beq_iff_eq]
        intro hc
        refine h2.1 ?_
        have hxm : e.object ∈ rest.map (fun x => x.object) :=
          List.mem_map_of_mem _ he
        rwa [hobj, ← hc] at hxm
      rw [@List.find?_cons_of_neg _ (fun x => x.object == key) a rest ha]
      exact find?_object_eq_some_of_mem he hobj h2.2

theorem assocTag_eq_tag {l : List JvmtiTagHashmapEntry}
    {e : JvmtiTagHashmapEntry} {key : Nat} (he : e ∈ l)
    (hobj : e.object = key) (hnd : (l.map (fun x => x.object)).Nodup) :
    assocTag l key = e.tag := by
  rw [assocTag, find?_object_eq_some_of_mem he hobj hnd]

theorem assocTag_eq_zero {l : List JvmtiTagHashmapEntry} {key : Nat}
    (h : ∀ e ∈ l, e.object ≠ key) : assocTag l key = 0 := by
  rw [assocTag, List.find?_eq_none.mpr (by simpa using h)]

theorem assocTag_perm {l l1 : List JvmtiTagHashmapEntry} {key : Nat}
    (hnd : (l.map (fun x => x.object)).Nodup) (hp : List.Perm l l1) :
    assocTag l key = assocTag l1 key := by
  by_cases hex : ∃ e ∈ l, e.object = key
  · rcases hex with ⟨e, he, hobj⟩
    rw [assocTag_eq_tag he hobj hnd,
      assocTag_eq_tag (hp.mem_iff.mp he) hobj
        ((List.Perm.nodup_iff (hp.map _)).mp hnd)]
  · push_neg at hex
    rw [assocTag_eq_zero hex, assocTag_eq_zero
      (fun e he => hex e (hp.mem_iff.mpr he))]

theorem wf_tagOf_eq_assocTag {m : JvmtiTagHashmap} (hwf : m.wf) (key : Nat) :
    m.tagOf key = assocTag m.entries key := by
  rcases hf : m.find key with _ | e
  · rw [JvmtiTagHashmap.tagOf, hf,
      assocTag_eq_zero ((wf_find_none_iff hwf).mp hf)]
  · rcases find_some_mem hf with ⟨he, hobj⟩
    rw [JvmtiTagHashmap.tagOf, hf, assocTag_eq_tag he hobj hwf.2.2.2.2.1]

theorem assocTag_cons_self {l : List JvmtiTagHashmapEntry}
    {e : JvmtiTagHashmapEntry} {key : Nat} (hobj : e.object = key) :
    assocTag (e :: l) key = e.tag := by
  rw [assocTag, @List.find?_cons_of_pos _ (fun x => x.object == key) e l
    (by simpa using hobj)]

theorem assocTag_cons_other {l : List JvmtiTagHashmapEntry}
    {e : JvmtiTagHashmapEntry} {key : Nat} (hobj : e.object ≠ key) :
    assocTag (e :: l) key = assocTag l key := by
  rw [assocTag, assocTag, @List.find?_cons_of_neg _ (fun x => x.object == key)
    e l (by simpa using hobj)]

theorem assocTag_map_setTag_other {key k2 : Nat} {t : Int} (hne : k2 ≠ key) :
    ∀ (l : List JvmtiTagHashmapEntry),
      assocTag (l.map (fun x => if x.object = key then { x with tag := t } else x)) k2
        = assocTag l k2
  | [] => rfl
  | a :: rest => by
    rw [List.map_cons]
    have hhead : (if a.object = key then { a with tag := t } else a).object
        = a.object := by
      by_cases hk : a.object = key <;> simp [hk]
    by_cases ha : a.object = k2
    · rw [assocTag_cons_self (hhead.trans ha), assocTag_cons_self ha]
      rw [if_neg (fun hk => by rw [ha] at hk; exact hne hk)]
    · rw [assocTag_cons_other (by rw [hhead]; exact ha),
        assocTag_cons_other ha]
      exact assocTag_map_setTag_other hne rest

theorem map_setTag_objects (key : Nat) (t : Int)
    (l : List JvmtiTagHashmapEntry) :
    (l.map (fun x => if x.object = key then { x with tag := t } else x)).map
      (fun x => x.object) = l.map (fun x => x.object) := by
  rw [List.map_map]
  refine List.map_congr_left ?_
  intro x _
  by_cases hx : x.object = key <;> simp [hx]

theorem assocTag_map_setTag_self {l : List JvmtiTagHashmapEntry}
    {e : JvmtiTagHashmapEntry} {key : Nat} {t : Int} (he : e ∈ l)
    (hobj : e.object = key) (hnd : (l.map (fun x => x.object)).Nodup) :
    assocTag (l.map (fun x => if x.object = key then { x with tag := t } else x)) key
      = t := by
  have hmem : (if e.object = key then { e with tag := t } else e)
      ∈ l.map (fun x => if x.object = key then { x with tag := t } else x) :=
    List.mem_map_of_mem _ he
  rw [if_pos hobj] at hmem
  have hnd2 : ((l.map (fun x => if x.object = key then { x with tag := t } else x)).map
      (fun x => x.object)).Nodup := by
    rw [map_setTag_objects]
    exact hnd
  exact assocTag_eq_tag hmem hobj hnd2

/-! # Lemmas: set_tag and the callback commit -/

theorem destroy_entry_hashmap (tm : JvmtiTagMap) (mf : Nat) :
    (tm.destroy_entry mf).hashmap = tm.hashmap := by
  rw [JvmtiTagMap.destroy_entry]
  split <;> rfl

theorem create_entry_eq (tm : JvmtiTagMap) (o : Nat) (t : Int) :
    (tm.create_entry o t).1 = { object := o, tag := t } ∧
    (tm.create_entry o t).2.hashmap = tm.hashmap := by
  rw [JvmtiTagMap.create_entry]
  split <;> exact ⟨rfl, rfl⟩

theorem set_tag_spec (vm : VMContext) (mf : Nat) (ok : Bool)
    {tm : JvmtiTagMap} (o : Nat) (t : Int) (hwf : tm.wf) :
    (JvmtiTagMap.set_tag vm mf ok tm o t).wf ∧
    (∀ k, (JvmtiTagMap.set_tag vm mf ok tm o t).hashmap.tagOf k
      = if k = vm.resolveMirror o then t else tm.hashmap.tagOf k) := by
  have hwf0 : tm.hashmap.wf := hwf
  have hnd0 : (tm.hashmap.entries.map (fun x => x.object)).Nodup :=
    hwf0.2.2.2.2.1
  rw [JvmtiTagMap.set_tag]
  rcases hf : tm.hashmap.find (vm.resolveMirror o) with _ | e
  · simp only [hf]
    by_cases ht : t = 0
    · rw [if_neg (by simp [ht])]
      refine ⟨hwf, ?_⟩
      intro k
      by_cases hk : k = vm.resolveMirror o
      · rw [if_pos hk, ht, hk, JvmtiTagHashmap.tagOf, hf]
      · rw [if_neg hk]
    · rw [if_pos ht]
      rcases hc : tm.create_entry (vm.resolveMirror o) t with ⟨entry, tm1⟩
      obtain ⟨hc1, hc2⟩ := create_entry_eq tm (vm.resolveMirror o) t
      rw [hc] at hc1 hc2
      simp only at hc1 hc2
      have hno : ∀ x ∈ tm.hashmap.entries, x.object ≠ vm.resolveMirror o :=
        (wf_find_none_iff hwf0).mp hf
      obtain ⟨hwf1, hperm1, _⟩ := @add_spec tm.hashmap hwf0 ok
        (vm.resolveMirror o) entry hno (by rw [hc1]) (by rw [hc1]; exact ht)
      dsimp only
      rw [hc2]
      refine ⟨hwf1, ?_⟩
      intro k
      rw [wf_tagOf_eq_assocTag hwf1,
        assocTag_perm hwf1.2.2.2.2.1 hperm1]
      by_cases hk : k = vm.resolveMirror o
      · rw [if_pos hk, assocTag_cons_self (by rw [hc1, hk])]
        rw [hc1]
      · rw [if_neg hk, assocTag_cons_other (by rw [hc1]; exact fun hx => hk hx.symm),
          ← wf_tagOf_eq_assocTag hwf0]
  · simp only [hf]
    obtain ⟨hee, heo⟩ := find_some_mem hf
    by_cases ht : t = 0
    · rw [if_pos ht]
      rcases hr : tm.hashmap.remove (vm.resolveMirror o) with ⟨r, hm1⟩
      obtain ⟨h1, h2, h3, h4, h5⟩ := remove_spec hwf0 hf
      rw [hr] at h1 h2 h3 h4 h5
      simp only at h1 h2 h3 h4 h5
      have hres : (JvmtiTagMap.destroy_entry { tm with hashmap := hm1 } mf).hashmap
          = hm1 := destroy_entry_hashmap _ _
      constructor
      · show (JvmtiTagMap.destroy_entry { tm with hashmap := hm1 } mf).hashmap.wf
        rw [hres]
        exact h2
      · intro k
        show (JvmtiTagMap.destroy_entry { tm with hashmap := hm1 } mf).hashmap.tagOf k = _
        rw [hres, wf_tagOf_eq_assocTag h2]
        have hnomem : ∀ x ∈ hm1.entries, x.object ≠ vm.resolveMirror o := by
          intro x hx hc
          have hmap := h3.map (fun x => x.object)
          rw [List.map_cons] at hmap
          have hnd1 := (List.Perm.nodup_iff hmap).mp hnd0
          rw [List.nodup_cons] at hnd1
          refine hnd1.1 ?_
          rw [heo, ← hc]
          exact List.mem_map_of_mem _ hx
        by_cases hk : k = vm.resolveMirror o
        · rw [if_pos hk, ht, hk]
          exact assocTag_eq_zero hnomem
        · rw [if_neg hk]
          rw [show assocTag hm1.entries k = assocTag (e :: hm1.entries) k from
            (assocTag_cons_other (by rw [heo]; exact fun hx => hk hx.symm)).symm]
          rw [← assocTag_perm hnd0 h3, ← wf_tagOf_eq_assocTag hwf0]
    · rw [if_neg ht]
      have hwf1 := @setEntryTag_wf tm.hashmap hwf0 (vm.resolveMirror o) t ht
      refine ⟨hwf1, ?_⟩
      intro k
      show (tm.hashmap.setEntryTag (vm.resolveMirror o) t).tagOf k = _
      rw [wf_tagOf_eq_assocTag hwf1, setEntryTag_entries_eq hwf0]
      by_cases hk : k = vm.resolveMirror o
      · rw [if_pos hk, hk]
        exact assocTag_map_setTag_self hee heo hnd0
      · rw [if_neg hk, assocTag_map_setTag_other hk, ← wf_tagOf_eq_assocTag hwf0]

theorem commit_cases (tm : JvmtiTagMap) (o1 : Nat)
    (ent : Option JvmtiTagHashmapEntry) (hent : tm.hashmap.find o1 = ent)
    (post : Int) (mf : Nat) (ok : Bool) :
    CallbackWrapper.post_callback_tag_update tm o1 ent post mf ok
      = JvmtiTagMap.set_tag idVM mf ok tm o1 post ∨
    (∃ e, ent = some e ∧ post = e.tag ∧ post ≠ 0 ∧
      CallbackWrapper.post_callback_tag_update tm o1 ent post mf ok = tm) := by
  have hid : idVM.resolveMirror o1 = o1 := rfl
  rw [CallbackWrapper.post_callback_tag_update.eq_def, JvmtiTagMap.set_tag, hid,
    hent]
  rcases ent with _ | e
  · exact Or.inl rfl
  · simp only
    by_cases ht : post = 0
    · rw [if_pos ht, if_pos ht]
      exact Or.inl rfl
    · rw [if_neg ht, if_neg ht]
      by_cases hte : post ≠ e.tag
      · rw [if_pos hte]
        exact Or.inl rfl
      · rw [if_neg hte]
        push_neg at hte
        exact Or.inr ⟨e, rfl, hte, ht, rfl⟩

theorem commit_spec (mf : Nat) (ok : Bool) {tm : JvmtiTagMap} (o1 : Nat)
    (post : Int) (hwf : tm.wf) :
    (CallbackWrapper.post_callback_tag_update tm o1 (tm.hashmap.find o1)
      post mf ok).wf ∧
    ∀ k, (CallbackWrapper.post_callback_tag_update tm o1 (tm.hashmap.find o1)
      post mf ok).hashmap.tagOf k
        = if k = o1 then post else tm.hashmap.tagOf k := by
  rcases commit_cases tm o1 _ rfl post mf ok with heq | ⟨e, hf, hpe, _, heq⟩
  · rw [heq]
    exact set_tag_spec idVM mf ok o1 post hwf
  · rw [heq]
    refine ⟨hwf, ?_⟩
    intro k
    by_cases hk : k = o1
    · rw [if_pos hk, hk, JvmtiTagHashmap.tagOf, hf, hpe]
    · rw [if_neg hk]

theorem commit_current_noop {tm : JvmtiTagMap} (o1 : Nat) (mf : Nat) (ok : Bool)
    (hnz : ∀ e ∈ tm.hashmap.entries, e.tag ≠ 0) :
    CallbackWrapper.post_callback_tag_update tm o1 (tm.hashmap.find o1)
      (match tm.hashmap.find o1 with | none => 0 | some e => e.tag) mf ok
      = tm := by
  rcases hf : tm.hashmap.find o1 with _ | e
  · rw [CallbackWrapper.post_callback_tag_update.eq_def]
    simp only [hf]
    rfl
  · have hnz1 : e.tag ≠ 0 := hnz e (find_some_mem hf).1
    rw [CallbackWrapper.post_callback_tag_update.eq_def]
    simp only [hf]
    rw [if_neg hnz1, if_neg (by simp)]

/-! # The initial map -/

theorem initial_wf : JvmtiTagMap.initial.wf := by
  refine ⟨by decide, ?_, by decide, ?_, ?_, ?_, ?_⟩
  · simp [JvmtiTagMap.initial, JvmtiTagHashmap.init]
  · intro i hi e he
    simp only [JvmtiTagMap.initial, JvmtiTagHashmap.init] at he
    rw [getD_replicate_nil] at he
    cases he
  · simp [JvmtiTagMap.initial, JvmtiTagHashmap.init, JvmtiTagHashmap.entries]
  · intro e he
    simp [JvmtiTagMap.initial, JvmtiTagHashmap.init,
      JvmtiTagHashmap.entries] at he
  · simp [JvmtiTagMap.initial, JvmtiTagHashmap.init, JvmtiTagHashmap.entries]

theorem initial_find_none (key : Nat) :
    JvmtiTagMap.initial.hashmap.find key = none := by
  rw [JvmtiTagHashmap.find]
  have : JvmtiTagMap.initial.hashmap.table
      = List.replicate 4801 ([] : List JvmtiTagHashmapEntry) := rfl
  rw [this, getD_replicate_nil]
  rfl

theorem tag_for_eq_tagOf (tm : JvmtiTagMap) (k : Nat) :
    tag_for tm k = tm.hashmap.tagOf k := rfl

/-! # Claim C1: sequences of set_tag calls -/

theorem applySets_get (vm : VMContext) (mf : Nat)
    (hinj : Function.Injective vm.resolveMirror) (o : Nat) :
    ∀ (ops : List (Nat × Int × Bool)) (tm : JvmtiTagMap), tm.wf →
      JvmtiTagMap.get_tag vm (applySets vm mf tm ops) o
        = ops.foldl (fun acc op => if op.1 = o then op.2.1 else acc)
            (JvmtiTagMap.get_tag vm tm o)
  | [], tm, _ => rfl
  | op :: ops, tm, hwf => by
    rw [applySets, List.foldl_cons, List.foldl_cons]
    obtain ⟨hwf1, htag1⟩ := set_tag_spec vm mf op.2.2 op.1 op.2.1 hwf
    have hstep : JvmtiTagMap.get_tag vm
        (JvmtiTagMap.set_tag vm mf op.2.2 tm op.1 op.2.1) o
        = if op.1 = o then op.2.1 else JvmtiTagMap.get_tag vm tm o := by
      rw [JvmtiTagMap.get_tag, tag_for_eq_tagOf, htag1 (vm.resolveMirror o)]
      by_cases hk : op.1 = o
      · rw [if_pos hk, if_pos (by rw [hk])]
      · rw [if_neg hk, if_neg (fun hc => hk (hinj hc).symm)]
        rfl
    have := applySets_get vm mf hinj o ops
      (JvmtiTagMap.set_tag vm mf op.2.2 tm op.1 op.2.1) hwf1
    rw [applySets] at this
    rw [this, hstep]

/-- C1: for every object `o` and every finite sequence of `set_tag` calls
(applied to the fresh map, with any per-call resize-allocation outcomes),
`get_tag o` returns the tag of the most recent `set_tag(o, t)` with
`t ≠ 0`, and 0 when the most recent call for `o` was `set_tag(o, 0)` or no
call for `o` occurred.  The class-mirror substitution is injective (a
mirror determines its class). -/
theorem C1_get_reflects_last_set (vm : VMContext) (mf : Nat)
    (hinj : Function.Injective vm.resolveMirror)
    (ops : List (Nat × Int × Bool)) (o : Nat) :
    JvmtiTagMap.get_tag vm (applySets vm mf JvmtiTagMap.initial ops) o
      = lastSetTag ops o := by
  rw [applySets_get vm mf hinj o ops JvmtiTagMap.initial initial_wf]
  rw [lastSetTag]
  have h0 : JvmtiTagMap.get_tag vm JvmtiTagMap.initial o = 0 := by
    rw [JvmtiTagMap.get_tag, tag_for_eq_tagOf, JvmtiTagHashmap.tagOf,
      initial_find_none]
  rw [h0]

/-- C1 witness: a concrete call sequence on the fresh map. -/
theorem C1_witness :
    Function.Injective idVM.resolveMirror ∧
    JvmtiTagMap.get_tag idVM
      (applySets idVM 4096 JvmtiTagMap.initial
        [(8, 5, true), (16, 7, true), (8, 0, true)]) 8
      = lastSetTag [(8, 5, true), (16, 7, true), (8, 0, true)] 8 ∧
    lastSetTag [(8, 5, true), (16, 7, true), (8, 0, true)] 8 = 0 :=
  ⟨fun a b h => h,
   C1_get_reflects_last_set idVM 4096 (fun a b h => h)
     [(8, 5, true), (16, 7, true), (8, 0, true)] 8,
   by decide⟩

/-! # Lemmas: the reconciliation scan -/

theorem getD_take_of_lt {α : Type} (t : List α) (i n : Nat) (d : α)
    (h : i < n) : (t.take n).getD i d = t.getD i d := by
  rcases Nat.lt_or_ge i t.length with hi | hi
  · rw [List.getD_eq_getElem _ _ (by simp; omega), List.getD_eq_getElem _ _ hi]
    exact List.getElem_take _
  · rw [List.getD_eq_default _ _ (by simp; omega), List.getD_eq_default _ _ hi]

theorem take_tableInsert_flatten_perm {size pos : Nat}
    {t : List (List JvmtiTagHashmapEntry)} {e1 : JvmtiTagHashmapEntry}
    (hh : hashmapHash e1.object size < pos) (hlen : pos ≤ t.length) :
    List.Perm ((tableInsert size t e1).take pos).flatten
      (e1 :: (t.take pos).flatten) := by
  have h1 : (tableInsert size t e1).take pos
      = tableInsert size (t.take pos) e1 := by
    show (t.set (hashmapHash e1.object size)
        (e1 :: t.getD (hashmapHash e1.object size) [])).take pos = _
    rw [List.set_take, tableInsert, getD_take_of_lt _ _ _ _ hh]
  rw [h1]
  refine tableInsert_flatten_perm ?_
  rw [List.length_take]
  omega

theorem placedBelow_tableInsert {size pos : Nat}
    {t : List (List JvmtiTagHashmapEntry)} {e1 : JvmtiTagHashmapEntry}
    (hh : hashmapHash e1.object size < t.length)
    (hp : ∀ i < pos, ∀ x ∈ t.getD i [], hashmapHash x.object size = i) :
    ∀ i < pos, ∀ x ∈ (tableInsert size t e1).getD i [],
      hashmapHash x.object size = i := by
  intro i hi x hx
  have h2 : tableInsert size t e1
      = t.set (hashmapHash e1.object size)
          (e1 :: t.getD (hashmapHash e1.object size) []) := rfl
  rw [h2] at hx
  by_cases hieq : i = hashmapHash e1.object size
  · subst hieq
    rw [getD_set_self _ _ _ _ hh] at hx
    rcases List.mem_cons.mp hx with rfl | hx
    · rfl
    · exact hp _ hi x hx
  · rw [getD_set_ne _ _ _ hieq] at hx
    exact hp _ hi x hx

theorem deadTags_cons_dead {alive : Nat → Bool} {e : JvmtiTagHashmapEntry}
    {rest : List JvmtiTagHashmapEntry} (hd : alive e.object = false) :
    deadTags alive (e :: rest) = e.tag :: deadTags alive rest := by
  rw [deadTags, List.filter_cons_of_pos (by simp [hd]), List.map_cons, deadTags]

theorem deadTags_cons_live {alive : Nat → Bool} {e : JvmtiTagHashmapEntry}
    {rest : List JvmtiTagHashmapEntry} (ha : alive e.object = true) :
    deadTags alive (e :: rest) = deadTags alive rest := by
  rw [deadTags, List.filter_cons_of_neg (by simp [ha]), deadTags]

theorem liveEntries_cons_dead {alive : Nat → Bool} {reloc : Nat → Nat}
    {e : JvmtiTagHashmapEntry} {rest : List JvmtiTagHashmapEntry}
    (hd : alive e.object = false) :
    liveEntries alive reloc (e :: rest) = liveEntries alive reloc rest := by
  rw [liveEntries, List.filter_cons_of_neg (by simp [hd]), liveEntries]

theorem liveEntries_cons_live {alive : Nat → Bool} {reloc : Nat → Nat}
    {e : JvmtiTagHashmapEntry} {rest : List JvmtiTagHashmapEntry}
    (ha : alive e.object = true) :
    liveEntries alive reloc (e :: rest)
      = relocEntry reloc e :: liveEntries alive reloc rest := by
  rw [liveEntries, List.filter_cons_of_pos (by simp [ha]), List.map_cons,
    liveEntries]

theorem perm_cons_middle_congr {α : Type} (x : α) {A B C A1 B1 C1 : List α}
    (h : List.Perm (A ++ B ++ C) (A1 ++ B1 ++ C1)) :
    List.Perm (A ++ (x :: B) ++ C) (A1 ++ (x :: B1) ++ C1) := by
  rw [← Multiset.coe_eq_coe] at h ⊢
  simp only [← Multiset.coe_add, ← Multiset.cons_coe, ← Multiset.singleton_add]
    at h ⊢
  calc (↑A + ({x} + ↑B) + ↑C : Multiset α) = {x} + (↑A + ↑B + ↑C) := by abel
    _ = {x} + (↑A1 + ↑B1 + ↑C1) := by rw [h]
    _ = ↑A1 + ({x} + ↑B1) + ↑C1 := by abel

theorem perm_append_cons_right {α : Type} (x : α) (A B C : List α) :
    List.Perm (A ++ B ++ (x :: C)) (A ++ (x :: B) ++ C) := by
  refine perm_of_multiset ?_
  simp only [← Multiset.coe_add, ← Multiset.cons_coe, ← Multiset.singleton_add]
  abel

theorem perm_cons_left_shift {α : Type} (x : α) (A B C : List α) :
    List.Perm ((x :: A) ++ B ++ C) (A ++ (x :: B) ++ C) := by
  refine perm_of_multiset ?_
  simp only [← Multiset.coe_add, ← Multiset.cons_coe, ← Multiset.singleton_add]
  abel

theorem scanBucket_spec (alive : Nat → Bool) (reloc : Nat → Nat)
    (size pos : Nat) (postF : Bool) (mf : Nat) :
    ∀ (b : List JvmtiTagHashmapEntry) (s : WeakScanState),
      s.table.length = size → pos < size →
      (scanBucket alive reloc size pos postF mf b s).2.table.length = size ∧
      (scanBucket alive reloc size pos postF mf b s).2.table.drop pos
        = s.table.drop pos ∧
      (scanBucket alive reloc size pos postF mf b s).2.posted
        = s.posted ++ (if postF then deadTags alive b else []) ∧
      (scanBucket alive reloc size pos postF mf b s).2.removed
        = s.removed + (b.filter (fun e => alive e.object = false)).length ∧
      List.Perm
        (((scanBucket alive reloc size pos postF mf b s).2.table.take pos).flatten
          ++ (scanBucket alive reloc size pos postF mf b s).1
          ++ (scanBucket alive reloc size pos postF mf b s).2.delayed)
        ((s.table.take pos).flatten ++ liveEntries alive reloc b ++ s.delayed) ∧
      (∀ e ∈ (scanBucket alive reloc size pos postF mf b s).1,
        hashmapHash e.object size = pos) ∧
      ((∀ i < pos, ∀ x ∈ s.table.getD i [], hashmapHash x.object size = i) →
        (∀ i < pos,
          ∀ x ∈ (scanBucket alive reloc size pos postF mf b s).2.table.getD i [],
          hashmapHash x.object size = i)) := by
  intro b
  induction b with
  | nil =>
    intro s hlen hpos
    refine ⟨hlen, rfl, ?_, by simp [scanBucket], ?_, by simp [scanBucket],
      fun hp => hp⟩
    · show s.posted = s.posted ++ (if postF then deadTags alive [] else [])
      cases postF <;> simp [deadTags]
    · show List.Perm ((s.table.take pos).flatten ++ [] ++ s.delayed)
        ((s.table.take pos).flatten ++ liveEntries alive reloc [] ++ s.delayed)
      simp [liveEntries]
  | cons e rest ih =>
    intro s hlen hpos
    by_cases hd : alive e.object = false
    · have hstep : scanBucket alive reloc size pos postF mf (e :: rest) s
          = scanBucket alive reloc size pos postF mf rest
              { s with removed := s.removed + 1
                       free_count := if s.free_count ≥ mf then s.free_count
                                     else s.free_count + 1
                       posted := if postF then s.posted ++ [e.tag]
                                 else s.posted } := by
        rw [scanBucket, if_pos hd]
      rw [hstep]
      obtain ⟨ihlen, ihdrop, ihposted, ihremoved, ihperm, ihkept, ihplace⟩ :=
        ih { s with removed := s.removed + 1
                    free_count := if s.free_count ≥ mf then s.free_count
                                  else s.free_count + 1
                    posted := if postF then s.posted ++ [e.tag] else s.posted }
          hlen hpos
      refine ⟨ihlen, ihdrop, ?_, ?_, ?_, ihkept, ihplace⟩
      · rw [ihposted]
        cases postF <;> simp [deadTags_cons_dead hd]
      · rw [ihremoved]
        dsimp only
        rw [List.filter_cons_of_pos (by simp [hd]), List.length_cons]
        omega
      · rw [liveEntries_cons_dead hd]
        exact ihperm
    · have ha : alive e.object = true := by simpa using hd
      by_cases hnp : hashmapHash (reloc e.object) size = pos
      · -- the updated reference still hashes to this bucket: keep in place
        rcases hX : scanBucket alive reloc size pos postF mf rest s
          with ⟨kept, s1⟩
        have hstep : scanBucket alive reloc size pos postF mf (e :: rest) s
            = ({ e with object := reloc e.object } :: kept, s1) := by
          rw [scanBucket, if_neg hd]
          simp only [if_pos hnp, hX]
        rw [hstep]
        obtain ⟨ihlen, ihdrop, ihposted, ihremoved, ihperm, ihkept, ihplace⟩ :=
          ih s hlen hpos
        rw [hX] at ihlen ihdrop ihposted ihremoved ihperm ihkept ihplace
        refine ⟨ihlen, ihdrop, ?_, ?_, ?_, ?_, ihplace⟩
        · rw [ihposted]
          cases postF <;> simp [deadTags_cons_live ha]
        · rw [ihremoved]
          rw [List.filter_cons_of_neg (by simp [ha])]
        · rw [liveEntries_cons_live ha]
          exact perm_cons_middle_congr _ ihperm
        · intro x hx
          rcases List.mem_cons.mp hx with rfl | hx
          · exact hnp
          · exact ihkept x hx
      · by_cases hlt : hashmapHash (reloc e.object) size < pos
        · -- immediate splice into an already-passed bucket
          have hstep : scanBucket alive reloc size pos postF mf (e :: rest) s
              = scanBucket alive reloc size pos postF mf rest
                  { s with table := (tableInsert size s.table { e with object := reloc e.object }) } := by
            rw [scanBucket, if_neg hd]
            simp only [if_neg hnp, if_pos hlt]
          rw [hstep]
          have hlen1 : (tableInsert size s.table
              { e with object := reloc e.object }).length = size := by
            rw [tableInsert_length, hlen]
          obtain ⟨ihlen, ihdrop, ihposted, ihremoved, ihperm, ihkept, ihplace⟩ :=
            ih { s with table := (tableInsert size s.table { e with object := reloc e.object }) } hlen1 hpos
          refine ⟨ihlen, ?_, ?_, ?_, ?_, ihkept, ?_⟩
          · rw [ihdrop]
            show (tableInsert size s.table _).drop pos = s.table.drop pos
            exact drop_set_of_lt _ _ _ _ hlt
          · rw [ihposted]
            cases postF <;> simp [deadTags_cons_live ha]
          · rw [ihremoved]
            dsimp only
            rw [List.filter_cons_of_neg (by simp [ha])]
          · rw [liveEntries_cons_live ha]
            refine ihperm.trans ?_
            have htk : List.Perm
                ((tableInsert size s.table
                  { e with object := reloc e.object }).take pos).flatten
                ({ e with object := reloc e.object }
                  :: (s.table.take pos).flatten) :=
              take_tableInsert_flatten_perm hlt (by omega)
            refine ((htk.append_right _).append_right _).trans ?_
            exact perm_cons_left_shift _ _ _ _
          · intro hp
            refine ihplace ?_
            exact placedBelow_tableInsert
              (by rw [hlen]; exact hashmapHash_lt _ (by omega)) hp
        · -- deferred splice through the delayed_add side list
          have hstep : scanBucket alive reloc size pos postF mf (e :: rest) s
              = scanBucket alive reloc size pos postF mf rest
                  { s with delayed :=
                      { e with object := reloc e.object } :: s.delayed } := by
            rw [scanBucket, if_neg hd]
            simp only [if_neg hnp, if_neg hlt]
          rw [hstep]
          obtain ⟨ihlen, ihdrop, ihposted, ihremoved, ihperm, ihkept, ihplace⟩ :=
            ih { s with delayed :=
                  { e with object := reloc e.object } :: s.delayed } hlen hpos
          refine ⟨ihlen, ihdrop, ?_, ?_, ?_, ihkept, ihplace⟩
          · rw [ihposted]
            cases postF <;> simp [deadTags_cons_live ha]
          · rw [ihremoved]
            dsimp only
            rw [List.filter_cons_of_neg (by simp [ha])]
          · rw [liveEntries_cons_live ha]
            refine ihperm.trans ?_
            exact perm_append_cons_right _ _ _ _

theorem liveEntries_append (alive : Nat → Bool) (reloc : Nat → Nat)
    (A B : List JvmtiTagHashmapEntry) :
    liveEntries alive reloc (A ++ B)
      = liveEntries alive reloc A ++ liveEntries alive reloc B := by
  simp [liveEntries, List.filter_append]

theorem deadTags_append (alive : Nat → Bool)
    (A B : List JvmtiTagHashmapEntry) :
    deadTags alive (A ++ B) = deadTags alive A ++ deadTags alive B := by
  simp [deadTags, List.filter_append]

theorem weakStep_spec (alive : Nat → Bool) (reloc : Nat → Nat)
    (size : Nat) (postF : Bool) (mf : Nat) (s : WeakScanState) (pos : Nat)
    (hlen : s.table.length = size) (hpos : pos < size) :
    (weakStep alive reloc size postF mf s pos).table.length = size ∧
    (weakStep alive reloc size postF mf s pos).table.drop (pos + 1)
      = s.table.drop (pos + 1) ∧
    (weakStep alive reloc size postF mf s pos).posted
      = s.posted ++ (if postF then deadTags alive (s.table.getD pos []) else []) ∧
    (weakStep alive reloc size postF mf s pos).removed
      = s.removed + ((s.table.getD pos []).filter
          (fun e => alive e.object = false)).length ∧
    List.Perm
      (((weakStep alive reloc size postF mf s pos).table.take (pos + 1)).flatten
        ++ (weakStep alive reloc size postF mf s pos).delayed)
      ((s.table.take pos).flatten
        ++ liveEntries alive reloc (s.table.getD pos []) ++ s.delayed) ∧
    ((∀ i < pos, ∀ x ∈ s.table.getD i [], hashmapHash x.object size = i) →
      (∀ i < pos + 1,
        ∀ x ∈ (weakStep alive reloc size postF mf s pos).table.getD i [],
        hashmapHash x.object size = i)) := by
  rcases hX : scanBucket alive reloc size pos postF mf (s.table.getD pos []) s
    with ⟨kept, s1⟩
  have hws : weakStep alive reloc size postF mf s pos
      = { s1 with table := s1.table.set pos kept } := by
    rw [weakStep, hX]
  obtain ⟨ihlen, ihdrop, ihposted, ihremoved, ihperm, ihkept, ihplace⟩ :=
    scanBucket_spec alive reloc size pos postF mf (s.table.getD pos []) s
      hlen hpos
  rw [hX] at ihlen ihdrop ihposted ihremoved ihperm ihkept ihplace
  rw [hws]
  have hposlt : pos < s1.table.length := by rw [ihlen]; omega
  refine ⟨?_, ?_, ihposted, ihremoved, ?_, ?_⟩
  · rw [List.length_set]
    exact ihlen
  · show (s1.table.set pos kept).drop (pos + 1) = s.table.drop (pos + 1)
    rw [drop_set_of_lt _ _ _ _ (by omega)]
    have hdd : ∀ u : List (List JvmtiTagHashmapEntry),
        u.drop (pos + 1) = (u.drop pos).drop 1 := by
      intro u
      rw [List.drop_drop]
    rw [hdd s1.table, hdd s.table, ihdrop]
  · show List.Perm (((s1.table.set pos kept).take (pos + 1)).flatten
      ++ s1.delayed) _
    have htk : (s1.table.set pos kept).take (pos + 1)
        = (s1.table.take pos) ++ [kept] := by
      rw [List.take_succ]
      congr 1
      · rw [List.set_take]
        refine List.set_eq_of_length_le ?_
        rw [List.length_take]
        omega
      · rw [List.getElem?_set_self (by omega)]
        rfl
    rw [htk, List.flatten_append]
    have hsimp : (([kept] : List (List JvmtiTagHashmapEntry))).flatten
        = kept := by simp
    rw [hsimp]
    exact ihperm
  · intro hp i hi x hx
    by_cases hieq : i = pos
    · subst hieq
      rw [getD_set_self _ _ _ _ hposlt] at hx
      exact ihkept x hx
    · rw [getD_set_ne _ _ _ hieq] at hx
      exact ihplace hp i (by omega) x hx

theorem weakLoop_spec (alive : Nat → Bool) (reloc : Nat → Nat)
    (size : Nat) (postF : Bool) (mf : Nat) :
    ∀ (n pos : Nat) (s : WeakScanState), pos + n = size →
      s.table.length = size →
      (weakLoop alive reloc size postF mf n pos s).table.length = size ∧
      (weakLoop alive reloc size postF mf n pos s).posted
        = s.posted ++ (if postF then
            deadTags alive (s.table.drop pos).flatten else []) ∧
      (weakLoop alive reloc size postF mf n pos s).removed
        = s.removed + ((s.table.drop pos).flatten.filter
            (fun e => alive e.object = false)).length ∧
      List.Perm
        ((weakLoop alive reloc size postF mf n pos s).table.flatten
          ++ (weakLoop alive reloc size postF mf n pos s).delayed)
        ((s.table.take pos).flatten
          ++ liveEntries alive reloc (s.table.drop pos).flatten ++ s.delayed) ∧
      ((∀ i < pos, ∀ x ∈ s.table.getD i [], hashmapHash x.object size = i) →
        (∀ i < size,
          ∀ x ∈ (weakLoop alive reloc size postF mf n pos s).table.getD i [],
          hashmapHash x.object size = i))
  | 0, pos, s => by
    intro hps hlen
    have hpos : pos = size := by omega
    have hdrop : s.table.drop pos = [] := by
      rw [hpos, ← hlen, List.drop_length]
    have htake : s.table.take pos = s.table := by
      rw [hpos, ← hlen, List.take_length]
    rw [weakLoop, hdrop, htake]
    refine ⟨hlen, ?_, by simp, ?_, ?_⟩
    · cases postF <;> simp [deadTags]
    · simp [liveEntries]
    · intro hp i hi x hx
      exact hp i (by omega) x hx
  | n + 1, pos, s => by
    intro hps hlen
    have hpos : pos < size := by omega
    have hloop : weakLoop alive reloc size postF mf (n + 1) pos s
        = weakLoop alive reloc size postF mf n (pos + 1)
            (weakStep alive reloc size postF mf s pos) := by
      rw [weakLoop]
    obtain ⟨slen, sdrop, sposted, sremoved, sperm, splace⟩ :=
      weakStep_spec alive reloc size postF mf s pos hlen hpos
    obtain ⟨ilen, iposted, iremoved, iperm, iplace⟩ :=
      weakLoop_spec alive reloc size postF mf n (pos + 1)
        (weakStep alive reloc size postF mf s pos) (by omega) slen
    have hdecomp : (s.table.drop pos).flatten
        = s.table.getD pos [] ++ (s.table.drop (pos + 1)).flatten := by
      rw [List.drop_eq_getElem_cons (by omega), List.flatten_cons,
        List.getD_eq_getElem _ _ (by omega)]
    rw [hloop]
    refine ⟨ilen, ?_, ?_, ?_, ?_⟩
    · rw [iposted, sposted, sdrop, hdecomp]
      cases postF <;> simp [deadTags_append, List.append_assoc]
    · rw [iremoved, sremoved, sdrop, hdecomp]
      rw [List.filter_append, List.length_append]
      omega
    · rw [sdrop] at iperm
      refine perm_of_multiset ?_
      have m1 := Multiset.coe_eq_coe.mpr iperm
      have m2 := Multiset.coe_eq_coe.mpr sperm
      simp only [← Multiset.coe_add] at m1 m2
      rw [hdecomp, liveEntries_append]
      simp only [← Multiset.coe_add]
      rw [m1, add_right_comm, m2]
      abel
    · intro hp
      exact iplace (splace hp)

theorem spliceDelayed_spec (size : Nat) (hs : 0 < size) :
    ∀ (d : List JvmtiTagHashmapEntry) (t : List (List JvmtiTagHashmapEntry)),
      t.length = size →
      (spliceDelayed size d t).length = size ∧
      List.Perm (spliceDelayed size d t).flatten (t.flatten ++ d) ∧
      ((∀ i < size, ∀ x ∈ t.getD i [], hashmapHash x.object size = i) →
        (∀ i < size, ∀ x ∈ (spliceDelayed size d t).getD i [],
          hashmapHash x.object size = i))
  | [], t => by
    intro hlen
    rw [spliceDelayed]
    exact ⟨hlen, by simp, fun hp => hp⟩
  | e :: rest, t => by
    intro hlen
    rw [spliceDelayed]
    obtain ⟨ilen, iperm, iplace⟩ := spliceDelayed_spec size hs rest
      (tableInsert size t e) (by rw [tableInsert_length, hlen])
    refine ⟨ilen, ?_, ?_⟩
    · refine iperm.trans ?_
      have h1 : List.Perm ((tableInsert size t e).flatten ++ rest)
          ((e :: t.flatten) ++ rest) :=
        (tableInsert_flatten_perm (by rw [hlen]; exact hashmapHash_lt _ hs)).append_right _
      refine h1.trans ?_
      exact (List.perm_middle).symm
    · intro hp
      refine iplace ?_
      exact placedBelow_tableInsert (by rw [hlen]; exact hashmapHash_lt _ hs) hp

theorem do_weak_oops_master {tm : JvmtiTagMap} (alive : Nat → Bool)
    (reloc : Nat → Nat) (postF : Bool) (mf : Nat)
    (hlen : tm.hashmap.table.length = tm.hashmap.size)
    (hs : 0 < tm.hashmap.size)
    (hcount : tm.hashmap.entry_count = tm.hashmap.entries.length) :
    (tm.do_weak_oops alive reloc postF mf).2
      = (if postF then deadTags alive tm.hashmap.entries else []) ∧
    List.Perm (tm.do_weak_oops alive reloc postF mf).1.hashmap.entries
      (liveEntries alive reloc tm.hashmap.entries) ∧
    (∀ i < (tm.do_weak_oops alive reloc postF mf).1.hashmap.size,
      ∀ x ∈ (tm.do_weak_oops alive reloc postF mf).1.hashmap.table.getD i [],
      hashmapHash x.object (tm.do_weak_oops alive reloc postF mf).1.hashmap.size
        = i) ∧
    (tm.do_weak_oops alive reloc postF mf).1.hashmap.size = tm.hashmap.size ∧
    (tm.do_weak_oops alive reloc postF mf).1.hashmap.size_index
      = tm.hashmap.size_index ∧
    (tm.do_weak_oops alive reloc postF mf).1.hashmap.table.length
      = tm.hashmap.table.length ∧
    (tm.do_weak_oops alive reloc postF mf).1.hashmap.resizing_enabled = true ∧
    (tm.do_weak_oops alive reloc postF mf).1.hashmap.entry_count
      = tm.hashmap.entry_count - (tm.hashmap.entries.filter
          (fun e => alive e.object = false)).length := by
  by_cases hzero : tm.hashmap.entry_count = 0
  · have hdo : tm.do_weak_oops alive reloc postF mf
        = ({ tm with hashmap := { tm.hashmap with resizing_enabled := true } },
           []) := by
      rw [JvmtiTagMap.do_weak_oops]
      dsimp only
      rw [if_pos hzero]
    have hentries : tm.hashmap.entries = [] := by
      have : tm.hashmap.entries.length = 0 := by omega
      exact List.length_eq_zero.mp this
    rw [hdo]
    refine ⟨?_, ?_, ?_, rfl, rfl, rfl, rfl, ?_⟩
    · rw [hentries]
      cases postF <;> simp [deadTags]
    · show List.Perm tm.hashmap.entries _
      rw [hentries, liveEntries]
      simp
    · intro i hi x hx
      have hmem : x ∈ tm.hashmap.entries := mem_getD_flatten hx
      rw [hentries] at hmem
      cases hmem
    · rw [hentries]
      simp
  · have hdo : tm.do_weak_oops alive reloc postF mf
        = ({ hashmap :=
              { tm.hashmap with
                  resizing_enabled := true
                  table := (spliceDelayed tm.hashmap.size
                    (weakLoop alive reloc tm.hashmap.size postF mf
                      tm.hashmap.size 0
                      { table := tm.hashmap.table, delayed := [], posted := []
                        removed := 0
                        free_count := tm.free_entries_count }).delayed
                    (weakLoop alive reloc tm.hashmap.size postF mf
                      tm.hashmap.size 0
                      { table := tm.hashmap.table, delayed := [], posted := []
                        removed := 0
                        free_count := tm.free_entries_count }).table)
                  entry_count := tm.hashmap.entry_count
                    - (weakLoop alive reloc tm.hashmap.size postF mf
                        tm.hashmap.size 0
                        { table := tm.hashmap.table, delayed := [], posted := []
                          removed := 0
                          free_count := tm.free_entries_count }).removed }
             free_entries_count :=
               (weakLoop alive reloc tm.hashmap.size postF mf tm.hashmap.size 0
                 { table := tm.hashmap.table, delayed := [], posted := []
                   removed := 0
                   free_count := tm.free_entries_count }).free_count },
           (weakLoop alive reloc tm.hashmap.size postF mf tm.hashmap.size 0
             { table := tm.hashmap.table, delayed := [], posted := []
               removed := 0
               free_count := tm.free_entries_count }).posted) := by
      rw [JvmtiTagMap.do_weak_oops]
      dsimp only
      rw [if_neg hzero]
    obtain ⟨llen, lposted, lremoved, lperm, lplace⟩ :=
      weakLoop_spec alive reloc tm.hashmap.size postF mf tm.hashmap.size 0
        { table := tm.hashmap.table, delayed := [], posted := [], removed := 0
          free_count := tm.free_entries_count } (by omega) hlen
    obtain ⟨sdlen, sdperm, sdplace⟩ :=
      spliceDelayed_spec tm.hashmap.size hs
        (weakLoop alive reloc tm.hashmap.size postF mf tm.hashmap.size 0
          { table := tm.hashmap.table, delayed := [], posted := [], removed := 0
            free_count := tm.free_entries_count }).delayed
        (weakLoop alive reloc tm.hashmap.size postF mf tm.hashmap.size 0
          { table := tm.hashmap.table, delayed := [], posted := [], removed := 0
            free_count := tm.free_entries_count }).table llen
    simp only [List.drop_zero, List.take_zero, List.flatten_nil,
      List.nil_append, List.append_nil] at lposted lremoved lperm
    rw [hdo]
    refine ⟨lposted, ?_, ?_, rfl, rfl, ?_, rfl, ?_⟩
    · show List.Perm (spliceDelayed _ _ _).flatten _
      refine sdperm.trans ?_
      exact lperm
    · intro i hi x hx
      exact sdplace
        (lplace (fun i hi => absurd hi (by omega))) i hi x hx
    · show (spliceDelayed _ _ _).length = tm.hashmap.table.length
      rw [sdlen, hlen]
    · show tm.hashmap.entry_count
        - (weakLoop alive reloc tm.hashmap.size postF mf tm.hashmap.size 0
            { table := tm.hashmap.table, delayed := [], posted := []
              removed := 0
              free_count := tm.free_entries_count }).removed = _
      rw [lremoved]
      rw [Nat.zero_add]
      rfl

theorem do_weak_oops_wf {tm : JvmtiTagMap} (hwf : tm.wf) (alive : Nat → Bool)
    (reloc : Nat → Nat) (postF : Bool) (mf : Nat)
    (hinj : Function.Injective reloc) :
    (tm.do_weak_oops alive reloc postF mf).1.wf := by
  obtain ⟨hs, hlen, hsz, hplaced, hnd, hnz, hcount⟩ := hwf
  obtain ⟨hposted, hperm, hplace2, hsize, hsidx, htlen, hflag, hcnt⟩ :=
    do_weak_oops_master alive reloc postF mf hlen hs hcount
  have hlivemap : (liveEntries alive reloc tm.hashmap.entries).map
      (fun x => x.object)
      = ((tm.hashmap.entries.filter (fun e => alive e.object)).map
          (fun x => x.object)).map reloc := by
    rw [liveEntries, List.map_map, List.map_map]
    rfl
  have hlivelen : (liveEntries alive reloc tm.hashmap.entries).length
      = (tm.hashmap.entries.filter (fun e => alive e.object)).length := by
    rw [liveEntries, List.length_map]
  have hpart : tm.hashmap.entries.length
      = (tm.hashmap.entries.filter (fun e => alive e.object)).length
        + (tm.hashmap.entries.filter
            (fun e => alive e.object = false)).length := by
    have h1 := List.length_eq_length_filter_add
      (l := tm.hashmap.entries) (fun e => alive e.object)
    rw [h1]
    congr 1
    refine congrArg List.length (List.filter_congr ?_)
    intro x _
    cases alive x.object <;> simp
  refine ⟨?_, ?_, ?_, hplace2, ?_, ?_, ?_⟩
  · rw [hsize]
    exact hs
  · rw [htlen, hsize]
    exact hlen
  · rw [hsidx, hsize]
    exact hsz
  · refine (List.Perm.nodup_iff (hperm.map (fun x => x.object))).mpr ?_
    rw [hlivemap]
    refine List.Nodup.map hinj ?_
    exact List.Nodup.sublist ((List.filter_sublist _).map _) hnd
  · intro x hx
    have hx2 := hperm.mem_iff.mp hx
    rcases List.mem_map.mp hx2 with ⟨y, hy, rfl⟩
    have hy2 := (List.mem_filter.mp hy).1
    exact hnz y hy2
  · rw [hcnt, hperm.length_eq, hlivelen]
    omega

/-- C3: for every table state (any bucket layout, any entry placement) and
every liveness/relocation oracle, one reconciliation pass posts exactly the
dead entries' tags, in forward scan order (`OBJECT_FREE` enabled); every
surviving entry appears in the result exactly once, with the relocation
applied exactly once — entries moved to a lower bucket are spliced
immediately, entries moved to a higher bucket go through the `delayed_add`
side list and are spliced only after the scan, so no entry is visited
twice; and every surviving entry ends up in the bucket its updated
reference hashes to. -/
theorem C3_reconciliation_pass (tm : JvmtiTagMap) (alive : Nat → Bool)
    (reloc : Nat → Nat) (mf : Nat)
    (hlen : tm.hashmap.table.length = tm.hashmap.size)
    (hs : 0 < tm.hashmap.size)
    (hcount : tm.hashmap.entry_count = tm.hashmap.entries.length) :
    (tm.do_weak_oops alive reloc true mf).2
      = deadTags alive tm.hashmap.entries ∧
    List.Perm (tm.do_weak_oops alive reloc true mf).1.hashmap.entries
      (liveEntries alive reloc tm.hashmap.entries) ∧
    (∀ i < (tm.do_weak_oops alive reloc true mf).1.hashmap.size,
      ∀ x ∈ (tm.do_weak_oops alive reloc true mf).1.hashmap.table.getD i [],
      hashmapHash x.object
        (tm.do_weak_oops alive reloc true mf).1.hashmap.size = i) := by
  obtain ⟨hposted, hperm, hplace2, _⟩ :=
    do_weak_oops_master alive reloc true mf hlen hs hcount
  rw [if_pos rfl] at hposted
  exact ⟨hposted, hperm, hplace2⟩

/-- C3 witness: a five-bucket table where object 24 (bucket 3) relocates to
bucket 1 (immediate splice), object 8 (bucket 1) relocates to bucket 4
(deferred through the side list), and object 16 is dead. -/
theorem C3_witness :
    tmFixture.hashmap.table.length = tmFixture.hashmap.size ∧
    0 < tmFixture.hashmap.size ∧
    tmFixture.hashmap.entry_count = tmFixture.hashmap.entries.length ∧
    (tmFixture.do_weak_oops (fun o => o != 16)
      (fun o => if o = 24 then 8 else if o = 8 then 32 else o) true 4096).2
      = deadTags (fun o => o != 16) tmFixture.hashmap.entries ∧
    (tmFixture.do_weak_oops (fun o => o != 16)
      (fun o => if o = 24 then 8 else if o = 8 then 32 else o) true 4096).2
      = [3] := by
  have h := C3_reconciliation_pass tmFixture (fun o => o != 16)
    (fun o => if o = 24 then 8 else if o = 8 then 32 else o) 4096
    (by decide) (by decide) (by decide)
  exact ⟨by decide, by decide, by decide, h.1, by decide⟩

theorem reachable_wf {vm : VMContext} {tm : JvmtiTagMap}
    (h : Reachable vm tm) : tm.wf := by
  induction h with
  | initial => exact initial_wf
  | set_tag tm o t mf ok _ ih => exact (set_tag_spec vm mf ok o t ih).1
  | callback_commit tm obj post mf ok _ ih =>
    have hform : (CallbackWrapper.construct vm tm obj).destruct tm post mf ok
        = CallbackWrapper.post_callback_tag_update tm (vm.resolveMirror obj)
            (tm.hashmap.find (vm.resolveMirror obj)) post mf ok := rfl
    rw [hform]
    exact (commit_spec mf ok (vm.resolveMirror obj) post ih).1
  | reconcile tm alive reloc postF mf hinj _ ih =>
    exact do_weak_oops_wf ih alive reloc postF mf hinj

/-- C2: every tag-table state reachable through the store's operations
(set_tag, CallbackWrapper commit, reconciliation with an injective
relocation) is well-formed — no two entries reference the same object and
no entry carries tag 0; and on such a state, `set_tag` with a non-zero tag
on an already-tagged object rewrites that entry's tag in place (the entry
list is mapped, no entry is added) and leaves the entry count unchanged. -/
theorem C2_reachable_wellformed (vm : VMContext) (tm : JvmtiTagMap)
    (h : Reachable vm tm) :
    ((tm.hashmap.entries.map (fun e => e.object)).Nodup ∧
      (∀ e ∈ tm.hashmap.entries, e.tag ≠ 0)) ∧
    (∀ o t mf ok, t ≠ 0 → tm.hashmap.find (vm.resolveMirror o) ≠ none →
      (JvmtiTagMap.set_tag vm mf ok tm o t).hashmap.entries
        = tm.hashmap.entries.map
            (fun e => if e.object = vm.resolveMirror o then { e with tag := t }
                      else e) ∧
      (JvmtiTagMap.set_tag vm mf ok tm o t).hashmap.entry_count
        = tm.hashmap.entry_count) := by
  have hwf : tm.wf := reachable_wf h
  refine ⟨⟨hwf.2.2.2.2.1, hwf.2.2.2.2.2.1⟩, ?_⟩
  intro o t mf ok ht hfind
  rcases hf : tm.hashmap.find (vm.resolveMirror o) with _ | e
  · exact absurd hf hfind
  · have hstep : JvmtiTagMap.set_tag vm mf ok tm o t
        = { tm with hashmap := tm.hashmap.setEntryTag (vm.resolveMirror o) t } := by
      rw [JvmtiTagMap.set_tag]
      simp only [hf]
      rw [if_neg ht]
    rw [hstep]
    exact ⟨setEntryTag_entries_eq hwf _ t, rfl⟩

/-- C2 witness: the state after tagging object 8 on the fresh map, with the
in-place conjunct exercised by re-tagging object 8 with tag 7. -/
theorem C2_witness :
    ((((JvmtiTagMap.set_tag idVM 4096 true JvmtiTagMap.initial 8 5).hashmap.entries.map
        (fun e => e.object)).Nodup ∧
      (∀ e ∈ (JvmtiTagMap.set_tag idVM 4096 true JvmtiTagMap.initial 8 5).hashmap.entries,
        e.tag ≠ 0)) ∧
     ((JvmtiTagMap.set_tag idVM 4096 true
        (JvmtiTagMap.set_tag idVM 4096 true JvmtiTagMap.initial 8 5) 8 7).hashmap.entries
        = (JvmtiTagMap.set_tag idVM 4096 true JvmtiTagMap.initial 8 5).hashmap.entries.map
            (fun e => if e.object = idVM.resolveMirror 8 then { e with tag := 7 }
                      else e) ∧
      (JvmtiTagMap.set_tag idVM 4096 true
        (JvmtiTagMap.set_tag idVM 4096 true JvmtiTagMap.initial 8 5) 8 7).hashmap.entry_count
        = (JvmtiTagMap.set_tag idVM 4096 true JvmtiTagMap.initial 8 5).hashmap.entry_count)) := by
  have h := C2_reachable_wellformed idVM
    (JvmtiTagMap.set_tag idVM 4096 true JvmtiTagMap.initial 8 5)
    (Reachable.set_tag _ 8 5 4096 true Reachable.initial)
  exact ⟨h.1, h.2 8 7 4096 true (by decide) (by decide)⟩

/-! # Claim C5: resize growth, allocation failure, re-enabling -/

theorem add_flag_false {m : JvmtiTagHashmap} (hf : m.resizing_enabled = false)
    (ok : Bool) (key : Nat) (entry : JvmtiTagHashmapEntry) :
    (m.add ok key entry).resizing_enabled = false := by
  rw [JvmtiTagHashmap.add]
  dsimp only
  rw [if_neg (by simp [hf])]
  exact hf

theorem remove_flag (m : JvmtiTagHashmap) (key : Nat) :
    (m.remove key).2.resizing_enabled = m.resizing_enabled := by
  rw [JvmtiTagHashmap.remove]
  rcases bucketRemove key (m.table.getD (hashmapHash key m.size) [])
    with ⟨r, b1⟩
  rcases r with _ | e <;> rfl

theorem set_tag_flag_false (vm : VMContext) (mf : Nat) (ok : Bool)
    (tm : JvmtiTagMap) (o : Nat) (t : Int)
    (hf : tm.hashmap.resizing_enabled = false) :
    (JvmtiTagMap.set_tag vm mf ok tm o t).hashmap.resizing_enabled = false := by
  rw [JvmtiTagMap.set_tag]
  rcases hfind : tm.hashmap.find (vm.resolveMirror o) with _ | e
  · simp only [hfind]
    by_cases ht : t = 0
    · rw [if_neg (by simp [ht])]
      exact hf
    · rw [if_pos ht]
      rcases hc : tm.create_entry (vm.resolveMirror o) t with ⟨entry, tm1⟩
      obtain ⟨_, hc2⟩ := create_entry_eq tm (vm.resolveMirror o) t
      rw [hc] at hc2
      dsimp only
      exact add_flag_false (by rw [hc2]; exact hf) ok _ _
  · simp only [hfind]
    by_cases ht : t = 0
    · rw [if_pos ht]
      rcases hr : tm.hashmap.remove (vm.resolveMirror o) with ⟨r, hm1⟩
      dsimp only
      rw [destroy_entry_hashmap]
      have := remove_flag tm.hashmap (vm.resolveMirror o)
      rw [hr] at this
      dsimp only at this
      rw [this]
      exact hf
    · rw [if_neg ht]
      exact hf

theorem commit_flag_false (tm : JvmtiTagMap) (o1 : Nat) (post : Int)
    (mf : Nat) (ok : Bool) (hf : tm.hashmap.resizing_enabled = false) :
    (CallbackWrapper.post_callback_tag_update tm o1 (tm.hashmap.find o1)
      post mf ok).hashmap.resizing_enabled = false := by
  rcases commit_cases tm o1 _ rfl post mf ok with heq | ⟨e, _, _, _, heq⟩
  · rw [heq]
    exact set_tag_flag_false idVM mf ok tm o1 post hf
  · rw [heq]
    exact hf

theorem do_weak_oops_flag_true (tm : JvmtiTagMap) (alive : Nat → Bool)
    (reloc : Nat → Nat) (postF : Bool) (mf : Nat) :
    (tm.do_weak_oops alive reloc postF mf).1.hashmap.resizing_enabled
      = true := by
  rw [JvmtiTagMap.do_weak_oops]
  dsimp only
  split <;> rfl

/-- C5: (a) when an insertion raises the entry count above the resize
threshold with resizing enabled and the size table not exhausted, a
successful allocation grows the table to the next fixed size; (b) when
that allocation fails, the insertion itself has still succeeded into the
existing table (the entry is found afterwards, the size is unchanged) and
resizing is disabled; (c) resizing stays disabled across subsequent
`set_tag` calls and callback commits; (d) a reconciliation pass
unconditionally re-enables it at its start. -/
theorem C5_resize_policy :
    (∀ (m : JvmtiTagHashmap) (key : Nat) (entry : JvmtiTagHashmapEntry),
      m.resizing_enabled = true →
      m.entry_count + 1 > m.resize_threshold →
      ¬ hashmap_sizes.getD (m.size_index + 1) (-1) < 0 →
      (m.add true key entry).size
        = (hashmap_sizes.getD (m.size_index + 1) (-1)).toNat ∧
      (m.add true key entry).size_index = m.size_index + 1) ∧
    (∀ (m : JvmtiTagHashmap) (key : Nat) (entry : JvmtiTagHashmapEntry),
      m.resizing_enabled = true →
      m.entry_count + 1 > m.resize_threshold →
      ¬ hashmap_sizes.getD (m.size_index + 1) (-1) < 0 →
      m.table.length = m.size → 0 < m.size → entry.object = key →
      (m.add false key entry).find key = some entry ∧
      (m.add false key entry).size = m.size ∧
      (m.add false key entry).resizing_enabled = false) ∧
    (∀ (vm : VMContext) (mf : Nat) (ok : Bool) (tm : JvmtiTagMap) (o : Nat)
      (t : Int), tm.hashmap.resizing_enabled = false →
      (JvmtiTagMap.set_tag vm mf ok tm o t).hashmap.resizing_enabled = false) ∧
    (∀ (tm : JvmtiTagMap) (o1 : Nat) (post : Int) (mf : Nat) (ok : Bool),
      tm.hashmap.resizing_enabled = false →
      (CallbackWrapper.post_callback_tag_update tm o1 (tm.hashmap.find o1)
        post mf ok).hashmap.resizing_enabled = false) ∧
    (∀ (tm : JvmtiTagMap) (alive : Nat → Bool) (reloc : Nat → Nat)
      (postF : Bool) (mf : Nat),
      (tm.do_weak_oops alive reloc postF mf).1.hashmap.resizing_enabled
        = true) := by
  refine ⟨?_, ?_, set_tag_flag_false, commit_flag_false, do_weak_oops_flag_true⟩
  · intro m key entry hen hth hterm
    have hstep : m.add true key entry
        = ({ m with
             table := m.table.set (hashmapHash key m.size)
               (entry :: m.table.getD (hashmapHash key m.size) [])
             entry_count := m.entry_count + 1 } : JvmtiTagHashmap).resize true := by
      rw [JvmtiTagHashmap.add]
      dsimp only
      rw [if_pos (by simp [hen]; omega)]
    rw [hstep, JvmtiTagHashmap.resize]
    dsimp only
    rw [if_neg hterm, if_neg (by simp)]
    exact ⟨rfl, rfl⟩
  · intro m key entry hen hth hterm hlen hsz hobj
    have hstep : m.add false key entry
        = ({ m with
             table := m.table.set (hashmapHash key m.size)
               (entry :: m.table.getD (hashmapHash key m.size) [])
             entry_count := m.entry_count + 1 } : JvmtiTagHashmap).resize false := by
      rw [JvmtiTagHashmap.add]
      dsimp only
      rw [if_pos (by simp [hen]; omega)]
    rw [hstep, JvmtiTagHashmap.resize]
    dsimp only
    rw [if_neg hterm, if_pos rfl]
    refine ⟨?_, rfl, rfl⟩
    rw [JvmtiTagHashmap.find]
    dsimp only
    rw [getD_set_self _ _ _ _ (by rw [hlen]; exact hashmapHash_lt _ hsz)]
    rw [bucketFind, if_pos hobj]

/-- C5 witness: a table at its threshold (19204 entries, size 4801); a
successful resize grows it to 76831, a failed one keeps size 4801, keeps
the inserted entry findable, and disables resizing; disabled resizing
survives a `set_tag` and a commit, and a reconciliation pass re-enables
it. -/
theorem C5_witness :
    ((tmFull.add true 8 { object := 8, tag := 5 }).size
        = (hashmap_sizes.getD 1 (-1)).toNat ∧
      (tmFull.add true 8 { object := 8, tag := 5 }).size_index = 1) ∧
    ((hashmap_sizes.getD 1 (-1)).toNat = 76831) ∧
    ((tmFull.add false 8 { object := 8, tag := 5 }).find 8
        = some { object := 8, tag := 5 } ∧
      (tmFull.add false 8 { object := 8, tag := 5 }).size = tmFull.size ∧
      (tmFull.add false 8 { object := 8, tag := 5 }).resizing_enabled = false) ∧
    (JvmtiTagMap.set_tag idVM 4096 true tmFixture 8 3).hashmap.resizing_enabled
      = false ∧
    (CallbackWrapper.post_callback_tag_update tmFixture 8
      (tmFixture.hashmap.find 8) 9 4096 true).hashmap.resizing_enabled
      = false ∧
    (tmFixture.do_weak_oops (fun _ => true) id true 4096).1.hashmap.resizing_enabled
      = true := by
  obtain ⟨ha, hb, hc, hd, he⟩ := C5_resize_policy
  refine ⟨ha tmFull 8 _ (by decide) (by decide) (by decide), by decide,
    hb tmFull 8 _ (by decide) (by decide) (by decide)
      (List.length_replicate _ _) (by decide) rfl,
    hc idVM 4096 true tmFixture 8 3 (by decide),
    hd tmFixture 8 9 4096 true (by decide),
    he tmFixture (fun _ => true) id true 4096⟩

/-! # Claim C4: the four commit cases of a CallbackWrapper -/

/-- C4: the tag slot a `CallbackWrapper` hands to the callback starts at
the store's current tag of the (mirror-resolved) object, and when the
wrapper's scope ends the destructor commits the final slot value in four
cases: 0 → nonzero creates a new entry (the tag becomes the written value
and the entry count grows by one); nonzero → 0 removes the entry and
recycles it into the free pool unless the pool is full (tag becomes 0,
entry count drops by one, pool grows by one below `max_free`); two
distinct nonzero values update the found entry in place (the entry list is
mapped pointwise, the entry count is unchanged); and an unchanged slot
leaves the map untouched. -/
theorem C4_commit_four_cases (vm : VMContext) (mf : Nat) (ok : Bool)
    {tm : JvmtiTagMap} (obj : Nat) (post : Int) (hwf : tm.wf) :
    (CallbackWrapper.construct vm tm obj).obj_tag
        = tm.hashmap.tagOf (vm.resolveMirror obj) ∧
    (tm.hashmap.tagOf (vm.resolveMirror obj) = 0 → post ≠ 0 →
      ((CallbackWrapper.construct vm tm obj).destruct tm post mf
          ok).hashmap.tagOf (vm.resolveMirror obj) = post ∧
      ((CallbackWrapper.construct vm tm obj).destruct tm post mf
          ok).hashmap.entry_count = tm.hashmap.entry_count + 1) ∧
    (tm.hashmap.tagOf (vm.resolveMirror obj) ≠ 0 → post = 0 →
      ((CallbackWrapper.construct vm tm obj).destruct tm post mf
          ok).hashmap.tagOf (vm.resolveMirror obj) = 0 ∧
      ((CallbackWrapper.construct vm tm obj).destruct tm post mf
          ok).hashmap.entry_count = tm.hashmap.entry_count - 1 ∧
      ((CallbackWrapper.construct vm tm obj).destruct tm post mf
          ok).free_entries_count
        = (if tm.free_entries_count ≥ mf then tm.free_entries_count
           else tm.free_entries_count + 1)) ∧
    (tm.hashmap.tagOf (vm.resolveMirror obj) ≠ 0 → post ≠ 0 →
      post ≠ tm.hashmap.tagOf (vm.resolveMirror obj) →
      ((CallbackWrapper.construct vm tm obj).destruct tm post mf
          ok).hashmap.entries
        = tm.hashmap.entries.map (fun e =>
            if e.object = vm.resolveMirror obj then { e with tag := post }
            else e) ∧
      ((CallbackWrapper.construct vm tm obj).destruct tm post mf
          ok).hashmap.entry_count = tm.hashmap.entry_count) ∧
    (post = tm.hashmap.tagOf (vm.resolveMirror obj) →
      (CallbackWrapper.construct vm tm obj).destruct tm post mf ok = tm) := by
  have hwf0 : tm.hashmap.wf := hwf
  have hnd0 : (tm.hashmap.entries.map (fun x => x.object)).Nodup :=
    hwf0.2.2.2.2.1
  have hbr : (CallbackWrapper.construct vm tm obj).destruct tm post mf ok
      = CallbackWrapper.post_callback_tag_update tm (vm.resolveMirror obj)
          (tm.hashmap.find (vm.resolveMirror obj)) post mf ok := rfl
  refine ⟨rfl, ?_, ?_, ?_, ?_⟩
  · intro hT0 hpost
    rcases hf : tm.hashmap.find (vm.resolveMirror obj) with _ | e
    · have hno : ∀ x ∈ tm.hashmap.entries, x.object ≠ vm.resolveMirror obj :=
        (wf_find_none_iff hwf0).mp hf
      rw [hbr, CallbackWrapper.post_callback_tag_update.eq_def, hf]
      simp only
      rw [if_pos hpost]
      rcases hc : tm.create_entry (vm.resolveMirror obj) post with ⟨entry, tm1⟩
      obtain ⟨hc1, hc2⟩ := create_entry_eq tm (vm.resolveMirror obj) post
      rw [hc] at hc1 hc2
      simp only at hc1 hc2
      obtain ⟨hwf1, hperm1, hcnt1⟩ := @add_spec tm.hashmap hwf0 ok
        (vm.resolveMirror obj) entry hno (by rw [hc1]) (by rw [hc1]; exact hpost)
      dsimp only
      rw [hc2]
      constructor
      · rw [wf_tagOf_eq_assocTag hwf1, assocTag_perm hwf1.2.2.2.2.1 hperm1,
          assocTag_cons_self (by rw [hc1])]
        rw [hc1]
      · exact hcnt1
    · exfalso
      rw [JvmtiTagHashmap.tagOf, hf] at hT0
      exact hwf0.2.2.2.2.2.1 e (find_some_mem hf).1 hT0
  · intro hTnz hpost0
    rcases hf : tm.hashmap.find (vm.resolveMirror obj) with _ | e
    · exfalso
      rw [JvmtiTagHashmap.tagOf, hf] at hTnz
      exact hTnz rfl
    · obtain ⟨hee, heo⟩ := find_some_mem hf
      rw [hbr, CallbackWrapper.post_callback_tag_update.eq_def, hf]
      simp only
      rw [if_pos hpost0]
      rcases hr : tm.hashmap.remove (vm.resolveMirror obj) with ⟨r, hm1⟩
      obtain ⟨h1, h2, h3, h4, h5⟩ := remove_spec hwf0 hf
      rw [hr] at h1 h2 h3 h4 h5
      simp only at h1 h2 h3 h4 h5
      have hnomem : ∀ x ∈ hm1.entries, x.object ≠ vm.resolveMirror obj := by
        intro x hx hcx
        have hmap := h3.map (fun x => x.object)
        rw [List.map_cons] at hmap
        have hnd1 := (List.Perm.nodup_iff hmap).mp hnd0
        rw [List.nodup_cons] at hnd1
        refine hnd1.1 ?_
        rw [heo, ← hcx]
        exact List.mem_map_of_mem _ hx
      refine ⟨?_, ?_, ?_⟩
      · rw [destroy_entry_hashmap]
        dsimp only
        rw [wf_tagOf_eq_assocTag h2]
        exact assocTag_eq_zero hnomem
      · rw [destroy_entry_hashmap]
        dsimp only
        exact h4
      · rw [JvmtiTagMap.destroy_entry]
        dsimp only
        by_cases hfree : tm.free_entries_count ≥ mf
        · rw [if_pos hfree, if_pos hfree]
        · rw [if_neg hfree, if_neg hfree]
  · intro hTnz hpost hne
    rcases hf : tm.hashmap.find (vm.resolveMirror obj) with _ | e
    · exfalso
      rw [JvmtiTagHashmap.tagOf, hf] at hTnz
      exact hTnz rfl
    · rw [JvmtiTagHashmap.tagOf, hf] at hne
      rw [hbr, CallbackWrapper.post_callback_tag_update.eq_def, hf]
      simp only
      rw [if_neg (by simpa using hpost), if_pos hne]
      exact ⟨setEntryTag_entries_eq hwf0 (vm.resolveMirror obj) post, rfl⟩
  · intro hp
    rcases hf : tm.hashmap.find (vm.resolveMirror obj) with _ | e
    · rw [JvmtiTagHashmap.tagOf, hf] at hp
      rw [hbr, CallbackWrapper.post_callback_tag_update.eq_def, hf]
      simp only
      rw [if_neg (by simpa using hp)]
    · rw [JvmtiTagHashmap.tagOf, hf] at hp
      have henz : e.tag ≠ 0 := hwf0.2.2.2.2.2.1 e (find_some_mem hf).1
      rw [hbr, CallbackWrapper.post_callback_tag_update.eq_def, hf]
      simp only
      rw [if_neg (by rw [hp]; exact henz), if_neg (fun hc => hc hp)]

/-- C4 witness: on the fresh map, committing 7 for object 8 creates an
entry (tag becomes 7, count grows by one), and committing the unchanged
slot value 0 leaves the map untouched. -/
theorem C4_witness :
    ((CallbackWrapper.construct idVM JvmtiTagMap.initial 8).destruct
        JvmtiTagMap.initial 7 4096 true).hashmap.tagOf 8 = 7 ∧
    ((CallbackWrapper.construct idVM JvmtiTagMap.initial 8).destruct
        JvmtiTagMap.initial 7 4096 true).hashmap.entry_count
      = JvmtiTagMap.initial.hashmap.entry_count + 1 ∧
    (CallbackWrapper.construct idVM JvmtiTagMap.initial 8).destruct
        JvmtiTagMap.initial 0 4096 true = JvmtiTagMap.initial := by
  obtain ⟨-, h1, -, -, -⟩ :=
    C4_commit_four_cases idVM 4096 true 8 7 initial_wf
  obtain ⟨-, -, -, -, h4⟩ :=
    C4_commit_four_cases idVM 4096 true 8 0 initial_wf
  obtain ⟨ha, hb⟩ := h1 (by decide) (by decide)
  exact ⟨ha, hb, h4 (by decide)⟩

/-! # Claim C7: advanced-walk class and heap filters -/

theorem commit_noop_of_eq {tm : JvmtiTagMap} (o1 : Nat) (mf : Nat) (ok : Bool)
    (hnz : ∀ e ∈ tm.hashmap.entries, e.tag ≠ 0) (t : Int)
    (ht : t = tm.hashmap.tagOf o1) :
    CallbackWrapper.post_callback_tag_update tm o1 (tm.hashmap.find o1) t mf ok
      = tm := by
  rcases hf : tm.hashmap.find o1 with _ | e
  · rw [JvmtiTagHashmap.tagOf, hf] at ht
    dsimp only at ht
    rw [CallbackWrapper.post_callback_tag_update.eq_def]
    dsimp only
    rw [if_neg (by simp [ht])]
  · rw [JvmtiTagHashmap.tagOf, hf] at ht
    dsimp only at ht
    have henz : e.tag ≠ 0 := hnz e (find_some_mem hf).1
    rw [CallbackWrapper.post_callback_tag_update.eq_def]
    dsimp only
    rw [if_neg (by rw [ht]; exact henz), if_neg (fun hc => hc ht)]

theorem twoOop_construct_base (vm : VMContext) (tm : JvmtiTagMap)
    (referrer obj : Nat) :
    (TwoOopCallbackWrapper.construct vm tm referrer obj).base
      = CallbackWrapper.construct vm tm obj := by
  rw [TwoOopCallbackWrapper.construct]
  dsimp only
  split <;> rfl

theorem twoOop_destruct_noop (vm : VMContext) {tm : JvmtiTagMap}
    (referrer obj : Nat) (mf : Nat) (a1 a2 : Bool)
    (hnz : ∀ e ∈ tm.hashmap.entries, e.tag ≠ 0) :
    (TwoOopCallbackWrapper.construct vm tm referrer obj).destruct tm
      (CallbackWrapper.construct vm tm obj).obj_tag
      (TwoOopCallbackWrapper.construct vm tm referrer obj).referrer_obj_tag
      mf a1 a2 = tm := by
  by_cases hs : referrer = obj
  · rw [TwoOopCallbackWrapper.construct]
    dsimp only
    rw [if_pos hs]
    rw [TwoOopCallbackWrapper.destruct]
    dsimp only
    rw [if_pos rfl]
    exact commit_noop_of_eq (vm.resolveMirror obj) mf a2 hnz _ rfl
  · rw [TwoOopCallbackWrapper.construct]
    dsimp only
    rw [if_neg hs]
    rw [TwoOopCallbackWrapper.destruct]
    dsimp only
    rw [if_neg (by simp)]
    rw [commit_noop_of_eq (vm.resolveMirror referrer) mf a1 hnz
      (match tm.hashmap.find (vm.resolveMirror referrer) with
       | none => 0 | some e => e.tag) rfl]
    exact commit_noop_of_eq (vm.resolveMirror obj) mf a2 hnz _ rfl

theorem check_for_visit_spec (st : InvokerState) (obj : Nat) :
    (CallbackInvoker.check_for_visit st obj).tag_map = st.tag_map ∧
    (CallbackInvoker.check_for_visit st obj).marker = st.marker ∧
    (CallbackInvoker.check_for_visit st obj).visit_stack
      = (if ObjectMarker.visited st.marker obj then st.visit_stack
         else obj :: st.visit_stack) := by
  rw [CallbackInvoker.check_for_visit]
  by_cases hv : ObjectMarker.visited st.marker obj
  · rw [if_pos hv, if_pos hv]
    exact ⟨rfl, rfl, rfl⟩
  · rw [if_neg hv, if_neg hv]
    exact ⟨rfl, rfl, rfl⟩

/-- C7: in an advanced walk with class filter `C`, the reference callback
is never invoked for a referent whose class is not `C` (the result's
`invoked` flag is false, the walk continues, the tag map and marker are
untouched), yet the filtered object is still pushed onto the visit stack
when unvisited; likewise an object passing the class filter but rejected
by the heap filter is not reported but still pushed, with the tag map left
unchanged (the wrapper commits unchanged slots). -/
theorem C7_filters_suppress_report_not_traversal (vm : VMContext)
    (adv : AdvancedHeapWalkContext) (cb : AdvancedCallback) (C : Nat)
    (mf : Nat) (a1 a2 : Bool) (st : InvokerState) (rk referrer obj : Nat)
    (index : Int) (hkf : adv.klass_filter = some C) :
    (vm.klassOf obj ≠ C →
      (CallbackInvoker.invoke_advanced_object_reference_callback vm adv
         (some cb) mf a1 a2 st rk referrer obj index).invoked = false ∧
      (CallbackInvoker.invoke_advanced_object_reference_callback vm adv
         (some cb) mf a1 a2 st rk referrer obj index).cont = true ∧
      (CallbackInvoker.invoke_advanced_object_reference_callback vm adv
         (some cb) mf a1 a2 st rk referrer obj index).state.tag_map
        = st.tag_map ∧
      (CallbackInvoker.invoke_advanced_object_reference_callback vm adv
         (some cb) mf a1 a2 st rk referrer obj index).state.marker
        = st.marker ∧
      (CallbackInvoker.invoke_advanced_object_reference_callback vm adv
         (some cb) mf a1 a2 st rk referrer obj index).state.visit_stack
        = (if ObjectMarker.visited st.marker obj then st.visit_stack
           else obj :: st.visit_stack)) ∧
    (vm.klassOf obj = C →
      is_filtered_by_heap_filter
        (CallbackWrapper.construct vm st.tag_map obj).obj_tag
        (CallbackWrapper.construct vm st.tag_map obj).klass_tag
        adv.heap_filter = true →
      (∀ e ∈ st.tag_map.hashmap.entries, e.tag ≠ 0) →
      (CallbackInvoker.invoke_advanced_object_reference_callback vm adv
         (some cb) mf a1 a2 st rk referrer obj index).invoked = false ∧
      (CallbackInvoker.invoke_advanced_object_reference_callback vm adv
         (some cb) mf a1 a2 st rk referrer obj index).cont = true ∧
      (CallbackInvoker.invoke_advanced_object_reference_callback vm adv
         (some cb) mf a1 a2 st rk referrer obj index).state.tag_map
        = st.tag_map ∧
      (CallbackInvoker.invoke_advanced_object_reference_callback vm adv
         (some cb) mf a1 a2 st rk referrer obj index).state.marker
        = st.marker ∧
      (CallbackInvoker.invoke_advanced_object_reference_callback vm adv
         (some cb) mf a1 a2 st rk referrer obj index).state.visit_stack
        = (if ObjectMarker.visited st.marker obj then st.visit_stack
           else obj :: st.visit_stack)) := by
  constructor
  · intro hC
    have hfil : is_filtered_by_klass_filter vm obj adv.klass_filter = true := by
      rw [is_filtered_by_klass_filter.eq_def, hkf]
      simpa using hC
    rw [CallbackInvoker.invoke_advanced_object_reference_callback.eq_def]
    dsimp only
    rw [if_pos hfil]
    obtain ⟨h1, h2, h3⟩ := check_for_visit_spec st obj
    exact ⟨rfl, rfl, h1, h2, h3⟩
  · intro hC hheap hnz
    have hfil : is_filtered_by_klass_filter vm obj adv.klass_filter = false := by
      rw [is_filtered_by_klass_filter.eq_def, hkf]
      simp [hC]
    rw [CallbackInvoker.invoke_advanced_object_reference_callback.eq_def]
    dsimp only
    rw [if_neg (by rw [hfil]; exact Bool.false_ne_true)]
    rw [twoOop_construct_base]
    rw [if_pos hheap]
    rw [twoOop_destruct_noop vm referrer obj mf a1 a2 hnz]
    obtain ⟨h1, h2, h3⟩ := check_for_visit_spec
      ({ st with tag_map := st.tag_map }) obj
    dsimp only at h1 h2 h3
    exact ⟨rfl, rfl, h1, h2, h3⟩

/-- C7 witness: over `stFixture`, a walk whose class filter names class 1
(no object's class) never invokes the callback for object 8 yet pushes it,
and with class filter 0 plus heap filter `JVMTI_HEAP_FILTER_TAGGED` the
tagged object 8 is heap-filtered, not reported, still pushed, and the tag
map is unchanged. -/
theorem C7_witness :
    ((CallbackInvoker.invoke_advanced_object_reference_callback idVM
        { heap_filter := 4, klass_filter := some 1 }
        (some (fun _ => { res := 0, obj_tag := 0, referrer_tag := 0 }))
        4096 true true stFixture 1 24 8 0).invoked = false ∧
     (CallbackInvoker.invoke_advanced_object_reference_callback idVM
        { heap_filter := 4, klass_filter := some 1 }
        (some (fun _ => { res := 0, obj_tag := 0, referrer_tag := 0 }))
        4096 true true stFixture 1 24 8 0).cont = true ∧
     (CallbackInvoker.invoke_advanced_object_reference_callback idVM
        { heap_filter := 4, klass_filter := some 1 }
        (some (fun _ => { res := 0, obj_tag := 0, referrer_tag := 0 }))
        4096 true true stFixture 1 24 8 0).state.visit_stack = [8]) ∧
    ((CallbackInvoker.invoke_advanced_object_reference_callback idVM
        { heap_filter := 4, klass_filter := some 0 }
        (some (fun _ => { res := 0, obj_tag := 0, referrer_tag := 0 }))
        4096 true true stFixture 1 24 8 0).invoked = false ∧
     (CallbackInvoker.invoke_advanced_object_reference_callback idVM
        { heap_filter := 4, klass_filter := some 0 }
        (some (fun _ => { res := 0, obj_tag := 0, referrer_tag := 0 }))
        4096 true true stFixture 1 24 8 0).cont = true ∧
     (CallbackInvoker.invoke_advanced_object_reference_callback idVM
        { heap_filter := 4, klass_filter := some 0 }
        (some (fun _ => { res := 0, obj_tag := 0, referrer_tag := 0 }))
        4096 true true stFixture 1 24 8 0).state.tag_map
       = stFixture.tag_map ∧
     (CallbackInvoker.invoke_advanced_object_reference_callback idVM
        { heap_filter := 4, klass_filter := some 0 }
        (some (fun _ => { res := 0, obj_tag := 0, referrer_tag := 0 }))
        4096 true true stFixture 1 24 8 0).state.visit_stack = [8]) := by
  obtain ⟨hA, -⟩ := C7_filters_suppress_report_not_traversal idVM
    { heap_filter := 4, klass_filter := some 1 }
    (fun _ => { res := 0, obj_tag := 0, referrer_tag := 0 }) 1 4096 true true
    stFixture 1 24 8 0 rfl
  obtain ⟨h1, h2, -, -, h5⟩ := hA (by decide)
  obtain ⟨-, hB⟩ := C7_filters_suppress_report_not_traversal idVM
    { heap_filter := 4, klass_filter := some 0 }
    (fun _ => { res := 0, obj_tag := 0, referrer_tag := 0 }) 0 4096 true true
    stFixture 1 24 8 0 rfl
  obtain ⟨g1, g2, g3, -, g5⟩ := hB rfl (by decide) (by decide)
  refine ⟨⟨h1, h2, ?_⟩, g1, g2, g3, ?_⟩
  · rw [h5]
    decide
  · rw [g5]
    decide

/-! # Claim C9: basic-walk referrer-tag caching on self references -/

theorem check_for_visit_referrer (st : InvokerState) (obj : Nat) :
    (CallbackInvoker.check_for_visit st obj).last_referrer
      = st.last_referrer ∧
    (CallbackInvoker.check_for_visit st obj).last_referrer_tag
      = st.last_referrer_tag := by
  rw [CallbackInvoker.check_for_visit]
  by_cases hv : ObjectMarker.visited st.marker obj
  · rw [if_pos hv]
    exact ⟨rfl, rfl⟩
  · rw [if_neg hv]
    exact ⟨rfl, rfl⟩

/-- C9: after a basic object-reference report the referrer cache holds the
reported referrer, and the cached tag is the value the callback left in
the tag slot when the edge was self-referential (`referrer = referree`),
otherwise the referrer tag read before the callback ran; a next
consecutive report of the same referrer therefore uses exactly that cached
value. -/
theorem C9_self_reference_caches_written_tag (vm : VMContext)
    (cb : BasicCallback) (mf : Nat) (ok : Bool) (st : InvokerState)
    (rk : Nat) (referrer referree : Nat) (index : Int) :
    (CallbackInvoker.invoke_basic_object_reference_callback vm cb mf ok st rk
        referrer referree index).1.last_referrer = some referrer ∧
    (CallbackInvoker.invoke_basic_object_reference_callback vm cb mf ok st rk
        referrer referree index).1.last_referrer_tag
      = (if referrer = referree
         then (cb { ref_kind := rk
                    klass_tag :=
                      (CallbackWrapper.construct vm st.tag_map referree).klass_tag
                    obj_size :=
                      (CallbackWrapper.construct vm st.tag_map referree).obj_size
                    obj_tag :=
                      (CallbackWrapper.construct vm st.tag_map referree).obj_tag
                    referrer_tag := CallbackInvoker.basicReferrerTag vm st referrer
                    index := index }).2
         else CallbackInvoker.basicReferrerTag vm st referrer) ∧
    CallbackInvoker.basicReferrerTag vm
        (CallbackInvoker.invoke_basic_object_reference_callback vm cb mf ok st
          rk referrer referree index).1 referrer
      = (CallbackInvoker.invoke_basic_object_reference_callback vm cb mf ok st
          rk referrer referree index).1.last_referrer_tag := by
  have hmain :
      (CallbackInvoker.invoke_basic_object_reference_callback vm cb mf ok st rk
          referrer referree index).1.last_referrer = some referrer ∧
      (CallbackInvoker.invoke_basic_object_reference_callback vm cb mf ok st rk
          referrer referree index).1.last_referrer_tag
        = (if referrer = referree
           then (cb { ref_kind := rk
                      klass_tag :=
                        (CallbackWrapper.construct vm st.tag_map referree).klass_tag
                      obj_size :=
                        (CallbackWrapper.construct vm st.tag_map referree).obj_size
                      obj_tag :=
                        (CallbackWrapper.construct vm st.tag_map referree).obj_tag
                      referrer_tag :=
                        CallbackInvoker.basicReferrerTag vm st referrer
                      index := index }).2
           else CallbackInvoker.basicReferrerTag vm st referrer) := by
    rw [CallbackInvoker.invoke_basic_object_reference_callback.eq_def]
    dsimp only
    rcases hc : cb { ref_kind := rk
                     klass_tag :=
                       (CallbackWrapper.construct vm st.tag_map referree).klass_tag
                     obj_size :=
                       (CallbackWrapper.construct vm st.tag_map referree).obj_size
                     obj_tag :=
                       (CallbackWrapper.construct vm st.tag_map referree).obj_tag
                     referrer_tag :=
                       CallbackInvoker.basicReferrerTag vm st referrer
                     index := index } with ⟨control, obj_slot⟩
    dsimp only
    by_cases hctl : control = JvmtiIterationControl.CONTINUE
    · rw [if_pos hctl]
      obtain ⟨ha, hb⟩ := check_for_visit_referrer
        { st with last_referrer := some referrer
                  last_referrer_tag :=
                    if referrer = referree then obj_slot
                    else CallbackInvoker.basicReferrerTag vm st referrer }
        referree
      rw [ha, hb]
      exact ⟨rfl, rfl⟩
    · rw [if_neg hctl]
      exact ⟨rfl, rfl⟩
  refine ⟨hmain.1, hmain.2, ?_⟩
  rw [CallbackInvoker.basicReferrerTag, hmain.1, if_pos rfl]

/-! # Claim C10: one result pair per matching requested-tag element -/

theorem do_entry_go (vm : VMContext) (entry : JvmtiTagHashmapEntry) :
    ∀ (tags : List Int) (acc : List (Nat × Int)),
      tags.foldl
        (fun acc t =>
          if t = entry.tag then
            acc ++ [(if vm.isKlass entry.object then vm.javaMirror entry.object
                     else entry.object, entry.tag)]
          else acc)
        acc
      = acc ++ (tags.filter (fun t => t = entry.tag)).map
          (fun _ => (if vm.isKlass entry.object then vm.javaMirror entry.object
                     else entry.object, entry.tag))
  | [], acc => by simp
  | t :: rest, acc => by
    rw [List.foldl_cons]
    by_cases ht : t = entry.tag
    · rw [if_pos ht, do_entry_go vm entry rest,
        List.filter_cons_of_pos (by simpa using ht), List.map_cons,
        List.append_assoc, List.singleton_append]
    · rw [if_neg ht, do_entry_go vm entry rest,
        List.filter_cons_of_neg (by simpa using ht)]

theorem do_entry_eq_filter (vm : VMContext) (tags : List Int)
    (entry : JvmtiTagHashmapEntry) :
    TagObjectCollector.do_entry vm tags entry
      = (tags.filter (fun t => t = entry.tag)).map
          (fun _ => (if vm.isKlass entry.object then vm.javaMirror entry.object
                     else entry.object, entry.tag)) := by
  rw [TagObjectCollector.do_entry]
  dsimp only
  rw [do_entry_go vm entry tags [], List.nil_append]

theorem collect_go (vm : VMContext) (tags : List Int) :
    ∀ (l : List JvmtiTagHashmapEntry) (acc : List (Nat × Int)),
      l.foldl (fun a e => a ++ TagObjectCollector.do_entry vm tags e) acc
        = acc ++ (l.map (TagObjectCollector.do_entry vm tags)).flatten
  | [], acc => by simp
  | e :: rest, acc => by
    rw [List.foldl_cons, collect_go vm tags rest, List.map_cons,
      List.flatten_cons, List.append_assoc]

/-- C10: the result list of `get_objects_with_tags` is, entry by entry in
table order, one (object, tag) pair per element of the requested tag array
that equals the entry's tag (a class descriptor reported through its
mirror), and the returned count is that list's length; consequently a
request repeating tag 2 twice against a table where object 8 carries tag 2
reports object 8 twice and counts it twice. -/
theorem C10_duplicate_request_tags_duplicate_results :
    (∀ (vm : VMContext) (tm : JvmtiTagMap) (tags : List Int),
      (JvmtiTagMap.get_objects_with_tags vm tm tags).2
        = (tm.hashmap.entries.map (fun e =>
            (tags.filter (fun t => t = e.tag)).map
              (fun _ => (if vm.isKlass e.object then vm.javaMirror e.object
                         else e.object, e.tag)))).flatten ∧
      (JvmtiTagMap.get_objects_with_tags vm tm tags).1
        = (JvmtiTagMap.get_objects_with_tags vm tm tags).2.length) ∧
    JvmtiTagMap.get_objects_with_tags idVM tmFixture [2, 2]
      = (2, [(8, 2), (8, 2)]) := by
  refine ⟨?_, by decide⟩
  intro vm tm tags
  constructor
  · rw [JvmtiTagMap.get_objects_with_tags]
    dsimp only
    rw [collectTagged, collect_go vm tags tm.hashmap.entries [],
      List.nil_append]
    refine congrArg List.flatten ?_
    exact List.map_congr_left (fun e _ => do_entry_eq_filter vm tags e)
  · rfl

/-! # Claim C6: rollback on tag-buffer allocation failure -/

/-- C6: when both result pointers are non-null, the object buffer is
allocated (here at address 7) and the tag-buffer allocation then fails,
`TagObjectCollector::result` returns the allocation error but does not
release the partially built object buffer: the deallocation is issued for
the caller's pointer-variable address (here 100) — the code passes
`object_result_ptr` itself rather than `*object_result_ptr` — so the
object buffer stays allocated. -/
theorem C6_rollback_leaks_object_buffer :
    TagObjectCollector.result [] [some 7, none] (some 100) (some 101)
      = { error := JvmtiError.OUT_OF_MEMORY, mem := [7]
          object_result := some 7, dealloc_trace := [100] } ∧
    7 ∈ (TagObjectCollector.result [] [some 7, none] (some 100)
          (some 101)).mem ∧
    7 ∉ (TagObjectCollector.result [] [some 7, none] (some 100)
          (some 101)).dealloc_trace := by
  exact ⟨rfl, by decide, by decide⟩

/-! # Claim C8: header restoration and cache clearing -/

theorem applySaved_not_mem : ∀ (qs : List (Nat × MarkWord))
    (p : Nat × MarkWord), p.1 ∉ qs.map Prod.fst → applySaved qs p = p
  | [], p, _ => rfl
  | q :: t, p, h => by
    rw [applySaved, List.foldl_cons]
    rw [if_neg (fun hc => h (by rw [List.map_cons, hc]; exact List.mem_cons_self _ _))]
    exact applySaved_not_mem t p (fun hc => h (by rw [List.map_cons]; exact List.mem_cons_of_mem _ hc))

theorem applySaved_of_mem : ∀ (qs : List (Nat × MarkWord)),
    (qs.map Prod.fst).Nodup → ∀ {q : Nat × MarkWord}, q ∈ qs →
    ∀ (v : MarkWord), applySaved qs (q.1, v) = q
  | [], _, q, h, _ => absurd h (List.not_mem_nil q)
  | a :: t, hnd, q, h, v => by
    rw [List.map_cons, List.nodup_cons] at hnd
    rw [applySaved, List.foldl_cons]
    rcases List.mem_cons.mp h with heq | htail
    · rw [if_pos (by rw [heq])]
      dsimp only
      have : q.1 ∉ t.map Prod.fst := by rw [heq]; exact hnd.1
      have happ := applySaved_not_mem t (q.1, a.2) this
      rw [applySaved] at happ
      rw [happ, heq]
    · rw [if_neg (fun hc => hnd.1 (by
        simp only [← hc]
        exact List.mem_map_of_mem Prod.fst htail))]
      exact applySaved_of_mem t hnd.2 htail v

theorem map_applySaved_nil : ∀ (h : List (Nat × MarkWord)),
    h.map (applySaved []) = h
  | [] => rfl
  | a :: t => by
    rw [List.map_cons, map_applySaved_nil t]
    rfl

theorem foldl_heapSet_eq_map : ∀ (qs : List (Nat × MarkWord))
    (h : List (Nat × MarkWord)),
    qs.foldl (fun acc q => heapSet acc q.1 q.2) h = h.map (applySaved qs)
  | [], h => by
    rw [List.foldl_nil, map_applySaved_nil]
  | q :: t, h => by
    rw [List.foldl_cons, foldl_heapSet_eq_map t, heapSet, List.map_map]
    exact (List.map_congr_left (fun p _ => rfl)).symm

theorem keys_inj {orig : List (Nat × MarkWord)}
    (hnd : (orig.map Prod.fst).Nodup) {i j : Nat} (hi : i < orig.length)
    (hj : j < orig.length) (hk : (orig[i]).1 = (orig[j]).1) : i = j := by
  have hi2 : i < (orig.map Prod.fst).length := by simpa using hi
  have hj2 : j < (orig.map Prod.fst).length := by simpa using hj
  have h1 : (orig.map Prod.fst)[i] = (orig.map Prod.fst)[j] := by
    rw [List.getElem_map, List.getElem_map]
    exact hk
  exact (List.Nodup.getElem_inj_iff hnd).mp h1

theorem mem_key_eq {orig : List (Nat × MarkWord)}
    (hnd : (orig.map Prod.fst).Nodup) {p q : Nat × MarkWord}
    (hp : p ∈ orig) (hq : q ∈ orig) (hk : p.1 = q.1) : p = q := by
  obtain ⟨i, hi, hip⟩ := List.getElem_of_mem hp
  obtain ⟨j, hj, hjq⟩ := List.getElem_of_mem hq
  have hij : i = j := keys_inj hnd hi hj (by rw [hip, hjq]; exact hk)
  subst hij
  rw [← hip, ← hjq]

theorem heapGet_of_mem : ∀ {h : List (Nat × MarkWord)},
    (h.map Prod.fst).Nodup → ∀ {p : Nat × MarkWord}, p ∈ h →
    heapGet h p.1 = p.2
  | [], _, p, hp => absurd hp (List.not_mem_nil p)
  | a :: t, hnd, p, hp => by
    rw [List.map_cons, List.nodup_cons] at hnd
    by_cases ha : a.1 = p.1
    · have hpa : p = a := by
        rcases List.mem_cons.mp hp with heq | htail
        · exact heq
        · exact absurd (by rw [ha]; exact List.mem_map_of_mem Prod.fst htail)
            hnd.1
      rw [heapGet, List.find?_cons_of_pos _ (by simpa using ha), hpa]
    · have htail : p ∈ t := by
        rcases List.mem_cons.mp hp with heq | htail
        · exact absurd (by rw [heq]) ha
        · exact htail
      have hrec := heapGet_of_mem hnd.2 htail
      rw [heapGet, List.find?_cons_of_neg _ (by simpa using ha), ← hrec,
        heapGet]

theorem inv_keys {orig : List (Nat × MarkWord)} {s : ObjectMarkerState}
    (hinv : MarkerInv orig s) : s.heap.map Prod.fst = orig.map Prod.fst := by
  obtain ⟨-, -, -, hhl, hpt⟩ := hinv
  apply List.ext_getElem (by simp [hhl])
  intro i h1 h2
  have hi : i < orig.length := by simpa using h2
  have hs : i < s.heap.length := by simpa using h1
  rw [List.getElem_map, List.getElem_map]
  rcases hpt i hi hs with ⟨hA, -⟩ | ⟨hB, -, -⟩
  · rw [hA]
  · rw [hB]

theorem markword_eq_prototype {m : MarkWord} (h1 : m.marked = false)
    (h2 : m.must_be_preserved = false) : m = MarkWord.prototype := by
  cases m
  simp_all [MarkWord.must_be_preserved, MarkWord.prototype]

theorem MarkerInv_mark {orig : List (Nat × MarkWord)}
    (hnd : (orig.map Prod.fst).Nodup)
    (hunm : ∀ p ∈ orig, p.2.marked = false)
    {s : ObjectMarkerState} (hinv : MarkerInv orig s) (o : Nat) :
    MarkerInv orig (ObjectMarker.mark s o) := by
  have hkeys := inv_keys hinv
  have hndS2 : (s.heap.map Prod.fst).Nodup := by rw [hkeys]; exact hnd
  obtain ⟨hlen, hndS, hzip, hhl, hpt⟩ := hinv
  rw [ObjectMarker.mark]
  by_cases hmp : (heapGet s.heap o).must_be_preserved = true
  · rw [if_pos hmp]
    rcases hfind : s.heap.find? (fun q => q.1 = o) with _ | p
    · exfalso
      rw [heapGet, hfind] at hmp
      simp [MarkWord.must_be_preserved, MarkWord.prototype] at hmp
    · have hpmem : p ∈ s.heap := List.mem_of_find?_eq_some hfind
      have hpkey : p.1 = o := by simpa using List.find?_some hfind
      have hget : heapGet s.heap o = p.2 := by rw [heapGet, hfind]
      obtain ⟨i, hs, hip⟩ := List.getElem_of_mem hpmem
      have hi : i < orig.length := by rw [← hhl]; exact hs
      rcases hpt i hi hs with ⟨hA, hnin⟩ | ⟨hB, -, -⟩
      swap
      · exfalso
        rw [hB] at hip
        rw [hget, ← hip] at hmp
        simp [MarkWord.must_be_preserved, MarkWord.set_marked,
          MarkWord.prototype] at hmp
      have hpo : p = orig[i] := by rw [← hip, hA]
      have ho : (orig[i]).1 = o := by rw [← hpo]; exact hpkey
      have hm : heapGet s.heap o = (orig[i]).2 := by rw [hget, hpo]
      have hno : o ∉ s.saved_oop_stack := by rw [← ho]; exact hnin
      refine ⟨?_, ?_, ?_, ?_, ?_⟩
      · dsimp only
        simp [hlen]
      · dsimp only
        rw [List.nodup_append]
        exact ⟨hndS, List.nodup_singleton o,
          fun a ha hb => hno (by rw [← List.mem_singleton.mp hb]; exact ha)⟩
      · dsimp only
        rw [List.zip_append hlen]
        intro q hq
        rcases List.mem_append.mp hq with hold | hnew
        · exact hzip q hold
        · have hq2 : q = (o, heapGet s.heap o) := by
            simpa using hnew
          rw [hq2, hm, ← ho]
          exact ⟨List.getElem_mem _, by rw [← hm]; exact hmp⟩
      · dsimp only
        simp [heapSet, hhl]
      · intro j hj hs'
        dsimp only at hs' ⊢
        have hs'' : j < s.heap.length := by simpa [heapSet] using hs'
        simp only [heapSet, List.getElem_map]
        rcases hpt j hj hs'' with ⟨hA2, hnin2⟩ | ⟨hB2, hp2, hq2⟩
        · by_cases hkj : (orig[j]).1 = o
          · have hji : j = i := keys_inj hnd hj hi (by rw [hkj, ho])
            subst hji
            right
            rw [hA2]
            rw [if_pos hkj]
            refine ⟨rfl, ?_, ?_⟩
            · intro _
              rw [List.zip_append hlen]
              refine List.mem_append.mpr (Or.inr ?_)
              have hpair : orig[j] = (o, heapGet s.heap o) := by
                rw [hm, ← ho]
              rw [hpair]
              exact List.mem_singleton.mpr rfl
            · intro hfalse
              rw [hm] at hmp
              rw [hfalse] at hmp
              cases hmp
          · left
            rw [hA2]
            rw [if_neg hkj]
            refine ⟨rfl, ?_⟩
            dsimp only
            intro hmem
            rcases List.mem_append.mp hmem with h1 | h2
            · exact hnin2 h1
            · exact hkj (List.mem_singleton.mp h2)
        · right
          rw [hB2]
          dsimp only
          constructor
          · by_cases hkj : (orig[j]).1 = o
            · rw [if_pos hkj]
            · rw [if_neg hkj]
          · refine ⟨?_, hq2⟩
            intro hpres
            rw [List.zip_append hlen]
            exact List.mem_append.mpr (Or.inl (hp2 hpres))
  · rw [if_neg hmp]
    refine ⟨hlen, hndS, hzip, ?_, ?_⟩
    · dsimp only
      simp [heapSet, hhl]
    · intro j hj hs'
      dsimp only at hs' ⊢
      have hs'' : j < s.heap.length := by simpa [heapSet] using hs'
      simp only [heapSet, List.getElem_map]
      rcases hpt j hj hs'' with ⟨hA2, hnin2⟩ | ⟨hB2, hp2, hq2⟩
      · by_cases hkj : (orig[j]).1 = o
        · have hget : heapGet s.heap o = (orig[j]).2 := by
            have := heapGet_of_mem hndS2 (List.getElem_mem hs'')
            rw [hA2, hkj] at this
            rw [this]
          right
          rw [hA2]
          rw [if_pos hkj]
          refine ⟨rfl, ?_, ?_⟩
          · intro hpres
            exfalso
            rw [hget] at hmp
            exact hmp hpres
          · intro _
            refine markword_eq_prototype (hunm _ (List.getElem_mem hj)) ?_
            rw [← hget]
            cases hval : (heapGet s.heap o).must_be_preserved
            · rfl
            · exact absurd hval hmp
        · left
          rw [hA2]
          rw [if_neg hkj]
          exact ⟨rfl, hnin2⟩
      · right
        rw [hB2]
        dsimp only
        constructor
        · by_cases hkj : (orig[j]).1 = o
          · rw [if_pos hkj]
          · rw [if_neg hkj]
        · exact ⟨hp2, hq2⟩

theorem MarkerInv_init (heap : List (Nat × MarkWord)) :
    MarkerInv heap (ObjectMarker.init heap) := by
  refine ⟨rfl, List.nodup_nil, ?_, rfl, ?_⟩
  · intro q hq
    cases hq
  · intro i hi hs
    exact Or.inl ⟨rfl, List.not_mem_nil _⟩

theorem walkLoop_inv (kf : Nat → Nat) (refs : Nat → List Nat)
    (ck : Nat → Bool) (ab : Nat → Bool) {orig : List (Nat × MarkWord)}
    (hnd : (orig.map Prod.fst).Nodup)
    (hunm : ∀ p ∈ orig, p.2.marked = false) :
    ∀ (fuel : Nat) (st : HeapWalkState), MarkerInv orig st.marker →
      MarkerInv orig
        (VM_HeapWalkOperation.walkLoop kf refs ck ab fuel st).marker
  | 0, _, h => h
  | fuel + 1, st, h => by
    rw [VM_HeapWalkOperation.walkLoop.eq_def]
    rcases hv : st.visit_stack with _ | ⟨o, rest⟩
    · simp only [hv]
      exact h
    · simp only [hv]
      by_cases hvis : ObjectMarker.visited st.marker o
      · rw [if_pos hvis]
        exact walkLoop_inv kf refs ck ab hnd hunm fuel _ h
      · rw [if_neg hvis]
        rcases hres : VM_HeapWalkOperation.visit kf refs ck ab
          { st with visit_stack := rest } o with ⟨st2, cont⟩
        dsimp only
        have hst2 : st2.marker = ObjectMarker.mark st.marker o := by
          have h1 := congrArg Prod.fst hres
          rw [VM_HeapWalkOperation.visit] at h1
          dsimp only at h1
          rw [← h1]
        have hm3 : MarkerInv orig st2.marker := by
          rw [hst2]
          exact MarkerInv_mark hnd hunm h o
        by_cases hcont : cont = true
        · rw [if_pos hcont]
          exact walkLoop_inv kf refs ck ab hnd hunm fuel st2 hm3
        · rw [if_neg hcont]
          exact hm3

theorem done_restores {orig : List (Nat × MarkWord)}
    (hnd : (orig.map Prod.fst).Nodup)
    (hunm : ∀ p ∈ orig, p.2.marked = false)
    {s : ObjectMarkerState} (hinv : MarkerInv orig s) :
    ObjectMarker.done s = orig := by
  obtain ⟨hlen, hndS, hzip, hhl, hpt⟩ := hinv
  have hkeysnd : ((s.saved_oop_stack.zip s.saved_mark_stack).map
      Prod.fst).Nodup := by
    rw [List.map_fst_zip _ _ (le_of_eq hlen)]
    exact hndS
  rw [ObjectMarker.done]
  rw [foldl_heapSet_eq_map]
  rw [List.map_map]
  apply List.ext_getElem (by simp [hhl])
  intro i h1 h2
  have hi : i < orig.length := by simpa using h2
  have hs : i < s.heap.length := by simpa using h1
  rw [List.getElem_map]
  dsimp only [Function.comp]
  rcases hpt i hi hs with ⟨hA, hnin⟩ | ⟨hB, hpres, hproto⟩
  · rw [hA]
    have hm : (orig[i]).2.marked = false := hunm _ (List.getElem_mem hi)
    rw [hm]
    rw [if_neg (by simp)]
    refine applySaved_not_mem _ _ ?_
    rw [List.map_fst_zip _ _ (le_of_eq hlen)]
    exact hnin
  · rw [hB]
    dsimp only
    rw [if_pos (show MarkWord.prototype.set_marked.marked = true from rfl)]
    by_cases hmp : (orig[i]).2.must_be_preserved = true
    · have hmem := hpres hmp
      have := applySaved_of_mem _ hkeysnd hmem MarkWord.prototype
      exact this
    · have hmp2 : (orig[i]).2.must_be_preserved = false := by
        cases hval : (orig[i]).2.must_be_preserved
        · rfl
        · exact absurd hval hmp
      have hproto2 := hproto hmp2
      have hnin2 : (orig[i]).1 ∉ (s.saved_oop_stack.zip
          s.saved_mark_stack).map Prod.fst := by
        intro hk
        obtain ⟨q, hq, hqk⟩ := List.mem_map.mp hk
        obtain ⟨hqo, hqp⟩ := hzip q hq
        have hqe : q = orig[i] :=
          mem_key_eq hnd hqo (List.getElem_mem hi) hqk
        rw [hqe, hproto2] at hqp
        simp [MarkWord.must_be_preserved, MarkWord.prototype] at hqp
      rw [applySaved_not_mem _ ((orig[i]).1, MarkWord.prototype) hnin2, ← hproto2]

/-- C8: for every walk — any reference/caching/abort behaviour, any
seed stack, any iteration budget — over a heap with distinct objects
whose headers start unmarked, the heap returned after the walk's
destructors ran is exactly the pre-walk heap (every mark bit cleared and
every saved significant header reapplied), and the field-map cache
population is back to zero. -/
theorem C8_headers_restored_cache_cleared (klassOf : Nat → Nat)
    (refs : Nat → List Nat) (cacheKlass : Nat → Bool) (abortP : Nat → Bool)
    (heap : List (Nat × MarkWord)) (initial_stack : List Nat) (fuel : Nat)
    (hnd : (heap.map Prod.fst).Nodup)
    (hunm : ∀ p ∈ heap, p.2.marked = false) :
    (VM_HeapWalkOperation.doit klassOf refs cacheKlass abortP heap
        initial_stack fuel).finalHeap = heap ∧
    (VM_HeapWalkOperation.doit klassOf refs cacheKlass abortP heap
        initial_stack fuel).cachedFieldMapCount = 0 := by
  rw [VM_HeapWalkOperation.doit]
  dsimp only
  constructor
  · exact done_restores hnd hunm
      (walkLoop_inv klassOf refs cacheKlass abortP hnd hunm fuel _
        (MarkerInv_init heap))
  · rfl

/-- C8 witness: a walk over the two-object fixture heap (one significant
header, one prototype) that visits, caches a field map, and then aborts at
object 2 still hands back the original headers and an empty cache. -/
theorem C8_witness :
    (VM_HeapWalkOperation.doit (fun _ => 0) (fun _ => [2]) (fun _ => true)
        (fun o => decide (o = 2)) heapFixture [1, 2] 10).finalHeap
      = heapFixture ∧
    (VM_HeapWalkOperation.doit (fun _ => 0) (fun _ => [2]) (fun _ => true)
        (fun o => decide (o = 2)) heapFixture [1, 2] 10).cachedFieldMapCount
      = 0 :=
  C8_headers_restored_cache_cleared _ _ _ _ heapFixture [1, 2] 10
    (by decide) (by decide)
